import Mathlib

/-!
Verification development for the cotton-mixing summary engine
(`cotton-server.js`, endpoint `/api/cotton-mixing-summary` and its helpers).

Modelling conventions, used throughout:
* JavaScript numbers are modelled as exact rationals (`ℚ`).  Floating-point
  representation error is out of scope; `x.toFixed(2)` / `Math.round` are
  modelled on exact rationals.
* A JavaScript value that may be `null`/`undefined`/non-numeric is modelled as
  `Option ℚ` (`none` = missing or `NaN` after coercion), matching the places
  where the source applies `Number(x) || 0` or explicit null checks.
* Strings are ASCII-modelled: `toUpperCase` maps only `a`-`z`, `trim` strips
  the common whitespace characters.  Both sides of every comparison theorem
  use the same model, so this restriction does not affect any stated result.
* Timestamps need three states because the source distinguishes them:
  `new Date(x).getTime()` is a number, `NaN` (unparseable), or the field is
  `null` (absent); `JsTime` has exactly these constructors.
-/

/-! ## JS numeric primitives -/

/-- `Math.round x`: round half toward positive infinity. -/
def jround (x : ℚ) : ℤ := ⌊x + 1 / 2⌋

/-- `+(x.toFixed(2))` and `parseFloat(x.toFixed(2))`: round to two decimals,
ties toward positive infinity (the ECMAScript `toFixed` rule picks the larger
candidate integer on ties). -/
def toFixed2 (x : ℚ) : ℚ := (jround (100 * x) : ℚ) / 100

/-- Result of `new Date(v).getTime()` combined with the source's
`v ? new Date(v).getTime() : null` guards: absent (`null`), unparseable
(`nan`), or an epoch-millisecond value. -/
inductive JsTime where
  | null : JsTime
  | nan : JsTime
  | val : ℤ → JsTime
deriving DecidableEq

/-- JavaScript `a !== b` on two timestamp values (`NaN !== NaN` is `true`). -/
def JsTime.neq : JsTime → JsTime → Bool
  | .null, .null => false
  | .nan, .nan => true
  | .val x, .val y => decide (x ≠ y)
  | _, _ => true

/-- `a - b` as used inside an `Array.prototype.sort` comparator: a subtraction
involving `NaN` yields `NaN`, which the sort treats as `+0`. -/
def timeSub : JsTime → JsTime → ℤ
  | .val x, .val y => x - y
  | _, _ => 0

/-- `Number.MAX_SAFE_INTEGER`, the `?? Number.MAX_SAFE_INTEGER` default used
by the continuity comparators. -/
def maxSafeInteger : ℤ := 2 ^ 53 - 1

/-! ## JS string primitives -/

/-- The whitespace characters recognised by the model of `String.prototype.trim`
and of the regex class `\s` (ASCII subset; both sides of every comparison use
the same set). -/
def isSpaceChar (c : Char) : Bool :=
  c == ' ' || c == '\t' || c == '\n' || c == '\r'

/-- The lowercase-to-uppercase ASCII letter table. -/
def upPairs : List (Char × Char) :=
  [('a', 'A'), ('b', 'B'), ('c', 'C'), ('d', 'D'), ('e', 'E'), ('f', 'F'),
   ('g', 'G'), ('h', 'H'), ('i', 'I'), ('j', 'J'), ('k', 'K'), ('l', 'L'),
   ('m', 'M'), ('n', 'N'), ('o', 'O'), ('p', 'P'), ('q', 'Q'), ('r', 'R'),
   ('s', 'S'), ('t', 'T'), ('u', 'U'), ('v', 'V'), ('w', 'W'), ('x', 'X'),
   ('y', 'Y'), ('z', 'Z')]

/-- ASCII model of the per-character effect of `toUpperCase` (letters are
mapped through the table; every other character is unchanged). -/
def upChar (c : Char) : Char :=
  match upPairs.find? (fun p => p.1 == c) with
  | some p => p.2
  | none => c

/-- `trim` on a character list. -/
def jsTrimL (cs : List Char) : List Char :=
  ((cs.dropWhile isSpaceChar).reverse.dropWhile isSpaceChar).reverse

def isDigitChar (c : Char) : Bool := c.isDigit

/-- Numeric value of a digit string (the `parseInt(ds, 10)` of an all-digit
nonempty string, and the integer part of `Number(s)`). -/
def digitsVal (ds : List Char) : ℕ :=
  ds.foldl (fun n c => 10 * n + (c.toNat - 48)) 0

/-- Decimal body of `Number(s)` after sign removal: digits, optionally followed
by a point and digits, at least one digit in total.  Exponents, hex/binary
literals and `Infinity` are not modelled; no stated result depends on them. -/
def parseUnsignedDec (cs : List Char) : Option ℚ :=
  let intPart := cs.takeWhile isDigitChar
  let rest := cs.dropWhile isDigitChar
  match rest with
  | [] => if intPart = [] then none else some (digitsVal intPart)
  | c :: frac =>
    if c = '.' ∧ frac.all isDigitChar ∧ (intPart ≠ [] ∨ frac ≠ []) then
      some ((digitsVal intPart : ℚ) + (digitsVal frac : ℚ) / 10 ^ frac.length)
    else none

/-- `Number(s)` for a string: `none` models `NaN`.  The empty (or all-space)
string coerces to `0`, as in JavaScript. -/
def jsToNumber (s : String) : Option ℚ :=
  let t := jsTrimL s.data
  match t with
  | [] => some 0
  | '-' :: rest => (parseUnsignedDec rest).map (fun q => -q)
  | '+' :: rest => parseUnsignedDec rest
  | _ => parseUnsignedDec t

/-! ## Association-list helpers

JavaScript objects used as maps (`lotBalesMap`, `lotMap`,
`cottonContributions`) are modelled as association lists whose keys are
unique by construction (`aupdate` only appends a key that is absent). -/

/-- `m[k] || 0` (and `Number(m[k] || 0)`). -/
def alookup (m : List (String × ℚ)) (k : String) : ℚ :=
  match m.find? (fun p => p.1 == k) with
  | some p => p.2
  | none => 0

/-- `m[k] = (m[k] || 0) + b`. -/
def aupdate (m : List (String × ℚ)) (k : String) (b : ℚ) : List (String × ℚ) :=
  if m.any (fun p => p.1 == k) then
    m.map (fun p => if p.1 == k then (p.1, p.2 + b) else p)
  else
    m ++ [(k, b)]

/-- `new Set([...Object.keys(m1), ...Object.keys(m2)])`, as a deduplicated
key list (iteration order of the set is irrelevant to every use: the keys are
only summed or counted over). -/
def lotUnion (m1 m2 : List (String × ℚ)) : List String :=
  (m1.map Prod.fst ++ m2.map Prod.fst).dedup

/-- `Σ over the union of lot numbers |current(lot) − previous(lot)|`. -/
def absDiffSum (prev cur : List (String × ℚ)) : ℚ :=
  ((lotUnion prev cur).map (fun k => |alookup cur k - alookup prev k|)).sum

/-- Lots with zero previous bales and positive current bales. -/
def newLotCount (prev cur : List (String × ℚ)) : ℕ :=
  ((lotUnion prev cur).filter
    (fun k => decide (alookup prev k = 0) && decide (0 < alookup cur k))).length

/-- Lots with zero current bales and positive previous bales. -/
def remLotCount (prev cur : List (String × ℚ)) : ℕ :=
  ((lotUnion prev cur).filter
    (fun k => decide (alookup cur k = 0) && decide (0 < alookup prev k))).length

/-- The weekly loop's `!prevHas && currHas` count, where `has` is
`hasOwnProperty(lotNo) && lotMap[lotNo] > 0`: an absent key reads as `0`, so
`has` is exactly "recorded quantity positive". -/
def wkNewLotCount (prev cur : List (String × ℚ)) : ℕ :=
  ((lotUnion prev cur).filter
    (fun k => !decide (0 < alookup prev k) && decide (0 < alookup cur k))).length

/-- The weekly loop's `prevHas && !currHas` count. -/
def wkRemLotCount (prev cur : List (String × ℚ)) : ℕ :=
  ((lotUnion prev cur).filter
    (fun k => decide (0 < alookup prev k) && !decide (0 < alookup cur k))).length

/-! ## Data model: mixing rows and lot results

`mixing_chart` rows and `lot_results` rows as consumed by the summary
endpoint.  String-valued fields use `""` for `null`/absent (both are falsy in
every guard the source applies to them).  `issue_bale` is the coerced
`Number(r.issue_bale || 0)`; a non-numeric bale string (which would poison the
group total with `NaN`) is outside this model, and every stated result uses
numeric bales. -/

structure MixRow where
  mixing_no : String
  cotton : String
  unit : String
  line : String
  lot_no : String
  issue_bale : ℚ
deriving DecidableEq

/-- A `lot_results` row.  Each quality metric is `Option ℚ`: `none` models a
value that is missing or non-numeric (so `Number(v) || 0` yields `0`).
`min_mic_bale_per_lot` is `none` exactly when the source's validity guard
(`!== null/undefined/""` and `!isNaN`) fails; `no_of_bale` is the coerced
number with every invalid case folded to `0` (each such case fails the
`> 0` guard exactly as `0` does). -/
structure LotResult where
  lot_no : String
  variety : String
  mic : Option ℚ
  str : Option ℚ
  uhml : Option ℚ
  rd : Option ℚ
  plus_b : Option ℚ
  sf : Option ℚ
  ui : Option ℚ
  elong : Option ℚ
  trash : Option ℚ
  moist : Option ℚ
  min_mic : Option ℚ
  min_mic_bale_per_lot : Option ℚ
  no_of_bale : ℚ
deriving DecidableEq

/-- `rows.reduce((sum, r) => sum + Number(r.issue_bale || 0), 0)`. -/
def totalBalesOf (rows : List MixRow) : ℚ := (rows.map (fun r => r.issue_bale)).sum

/-- Accumulator of the per-row aggregation loop: the ten weighted-metric
numerators, the `min_mic_percent` numerator, the collected numeric `min_mic`
values, and the per-lot bale map. -/
structure WeightedAcc where
  mic : ℚ
  str : ℚ
  uhml : ℚ
  rd : ℚ
  plus_b : ℚ
  sf : ℚ
  ui : ℚ
  elong : ℚ
  trash : ℚ
  moist : ℚ
  minMicNum : ℚ
  minMicValues : List ℚ
  lotBales : List (String × ℚ)
deriving DecidableEq

def initAcc : WeightedAcc :=
  ⟨0, 0, 0, 0, 0, 0, 0, 0, 0, 0, 0, [], []⟩

/-- One iteration of `for (const mixRow of rows)`: find the lot result
(`lotResults.find(l => l.lot_no === mixRow.lot_no)`, first match wins), skip
the row if absent (`if (!lot) continue`), otherwise accumulate every metric
numerator with `(Number(lot.m) || 0) * bales`, the `min_mic_percent`
numerator under its validity guard, the numeric `min_mic` values, and the
lot-bale map (keyed only when `lot_no` is truthy). -/
def processRow (lotResults : List LotResult) (acc : WeightedAcc) (r : MixRow) : WeightedAcc :=
  match lotResults.find? (fun l => l.lot_no == r.lot_no) with
  | none => acc
  | some lot =>
    let bales := r.issue_bale
    { mic := acc.mic + lot.mic.getD 0 * bales
      str := acc.str + lot.str.getD 0 * bales
      uhml := acc.uhml + lot.uhml.getD 0 * bales
      rd := acc.rd + lot.rd.getD 0 * bales
      plus_b := acc.plus_b + lot.plus_b.getD 0 * bales
      sf := acc.sf + lot.sf.getD 0 * bales
      ui := acc.ui + lot.ui.getD 0 * bales
      elong := acc.elong + lot.elong.getD 0 * bales
      trash := acc.trash + lot.trash.getD 0 * bales
      moist := acc.moist + lot.moist.getD 0 * bales
      minMicNum := acc.minMicNum +
        (match lot.min_mic_bale_per_lot with
          | some mb => if 0 < lot.no_of_bale then bales * (mb * 100 / lot.no_of_bale) else 0
          | none => 0)
      minMicValues := acc.minMicValues ++
        (match lot.min_mic with
          | some v => [v]
          | none => [])
      lotBales := if r.lot_no == "" then acc.lotBales else aupdate acc.lotBales r.lot_no bales }

def aggregateRows (lotResults : List LotResult) (rows : List MixRow) : WeightedAcc :=
  rows.foldl (processRow lotResults) initAcc

/-- Closed form of one row's contribution to one metric numerator: `0` when
the row has no matching lot result or the metric value is missing/non-numeric,
else `value · bales`. -/
def rowMetric (lotResults : List LotResult) (get : LotResult → Option ℚ) (r : MixRow) : ℚ :=
  match lotResults.find? (fun l => l.lot_no == r.lot_no) with
  | none => 0
  | some lot => (get lot).getD 0 * r.issue_bale

/-- Closed form of one row's contribution to the `min_mic_percent` numerator. -/
def rowMinMic (lotResults : List LotResult) (r : MixRow) : ℚ :=
  match lotResults.find? (fun l => l.lot_no == r.lot_no) with
  | none => 0
  | some lot =>
    match lot.min_mic_bale_per_lot with
    | some mb => if 0 < lot.no_of_bale then r.issue_bale * (mb * 100 / lot.no_of_bale) else 0
    | none => 0

/-! ## Daily grouping key and mixing range -/

/-- The daily grouping key `` `${row.mixing_no}|${row.cotton}` ``. -/
def dailyKey (r : MixRow) : String := r.mixing_no ++ "|" ++ r.cotton

/-- `[...new Set(rows.map(r => r.mixing_no))].map(Number).filter(n =>
!Number.isNaN(n)).sort((a, b) => a - b)`. -/
def mixingNumbersOf (rows : List MixRow) : List ℚ :=
  ((rows.map (fun r => r.mixing_no)).dedup.filterMap jsToNumber).mergeSort
    (fun a b => decide (a ≤ b))

/-- The rendered `mixing_no` field of a summary entry, kept structural:
`raw` is the fallback `rows[0].mixing_no` (no numeric mixing number),
`single` renders `` `${min}` `` when min = max, and `span` renders
`` `${min}-${max}` ``. -/
inductive MixingRange where
  | raw : String → MixingRange
  | single : ℚ → MixingRange
  | span : ℚ → ℚ → MixingRange
deriving DecidableEq

def mixingRangeOf (rows : List MixRow) : MixingRange :=
  match mixingNumbersOf rows with
  | [] =>
    .raw (match rows with
      | [] => ""
      | r :: _ => r.mixing_no)
  | q :: qs =>
    let mn := qs.foldl min q
    let mx := qs.foldl max q
    if mn = mx then .single mn else .span mn mx

/-! ## A daily summary entry (weighted averages)

The weekly/monthly branch (source lines 1716-1780) repeats this computation
line for line on a period group's rows; `dailySummary` therefore embeds the
weighted-metric computation of both cited branches. -/

structure DailySummary where
  mixing_range : MixingRange
  total_bales : ℚ
  no_of_lots : ℕ
  mic : ℚ
  str : ℚ
  uhml : ℚ
  rd : ℚ
  plus_b : ℚ
  sf : ℚ
  ui : ℚ
  elong : ℚ
  trash : ℚ
  moist : ℚ
  min_mic : Option ℚ
  min_mic_percent : ℚ
  lotBales : List (String × ℚ)
deriving DecidableEq

/-- The weighted-average computation for one group: when `totalBales > 0`
each accumulated numerator is divided by the total and rounded to two
decimals, otherwise the fields keep their accumulated value (initially `0`)
and `min_mic_percent` is set to `0`; `min_mic` is the minimum of the collected
numeric per-lot `min_mic` values (rendered with `toFixed(2)`, modelled as the
rounded rational) or `null` when none were collected. -/
def dailySummary (lotResults : List LotResult) (rows : List MixRow) : DailySummary :=
  let totalBales := totalBalesOf rows
  let acc := aggregateRows lotResults rows
  { mixing_range := mixingRangeOf rows
    total_bales := totalBales
    no_of_lots := (rows.map (fun r => r.lot_no)).dedup.length
    mic := if 0 < totalBales then toFixed2 (acc.mic / totalBales) else acc.mic
    str := if 0 < totalBales then toFixed2 (acc.str / totalBales) else acc.str
    uhml := if 0 < totalBales then toFixed2 (acc.uhml / totalBales) else acc.uhml
    rd := if 0 < totalBales then toFixed2 (acc.rd / totalBales) else acc.rd
    plus_b := if 0 < totalBales then toFixed2 (acc.plus_b / totalBales) else acc.plus_b
    sf := if 0 < totalBales then toFixed2 (acc.sf / totalBales) else acc.sf
    ui := if 0 < totalBales then toFixed2 (acc.ui / totalBales) else acc.ui
    elong := if 0 < totalBales then toFixed2 (acc.elong / totalBales) else acc.elong
    trash := if 0 < totalBales then toFixed2 (acc.trash / totalBales) else acc.trash
    moist := if 0 < totalBales then toFixed2 (acc.moist / totalBales) else acc.moist
    min_mic :=
      match acc.minMicValues with
      | [] => none
      | v :: vs => some (toFixed2 (vs.foldl min v))
    min_mic_percent := if 0 < totalBales then toFixed2 (acc.minMicNum / totalBales) else 0
    lotBales := acc.lotBales }

/-! ## Blend-version parsing (`parseCottonVersion`) -/

/-- The regex class `[\s\-_\/]` (separator before a trailing version marker). -/
def sepChar (c : Char) : Bool :=
  isSpaceChar c || c == '-' || c == '_' || c == '/'

/-- `String(v).trim().toUpperCase()` on the character list. -/
def normChars (s : String) : List Char := (jsTrimL s.data).map upChar

/-- Strip a trailing run of separator characters
(`.replace(/[\s\-_\/]+$/g, "")`). -/
def stripTrailingSeps (cs : List Char) : List Char :=
  (cs.reverse.dropWhile sepChar).reverse

/-- The line terminators `.` does NOT match in a JavaScript regex (ASCII
subset; U+2028/U+2029 are outside the modelled alphabet). -/
def termChar (c : Char) : Bool :=
  c == '\n' || c == '\r'

/-- The maximal terminator-free suffix of a list: what the capture group
`(.*?)` can actually reach, since `String.match` restarts after a failed
start index and `.` cannot cross a line terminator. -/
def lastSegment (cs : List Char) : List Char :=
  (cs.reverse.takeWhile (fun c => !termChar c)).reverse

/-- Match of `^(\d{2})_(\d{2})_V(\d+)$` on the normalized code: returns the
`"<first>_<second>"` group key and the parsed version digits. -/
def match22V (cs : List Char) : Option (List Char × ℕ) :=
  match cs with
  | a :: b :: '_' :: c :: d :: '_' :: 'V' :: ds =>
    if isDigitChar a ∧ isDigitChar b ∧ isDigitChar c ∧ isDigitChar d ∧
        ds ≠ [] ∧ ds.all isDigitChar then
      some ([a, b, '_', c, d], digitsVal ds)
    else none
  | _ => none

/-- Does `rest` match `[\s\-_\/]*V\d+$` in full?  If so, return the digits.
(`V` is not a separator, so the separator run is necessarily maximal.) -/
def tailMarker (rest : List Char) : Option (List Char) :=
  match rest.dropWhile sepChar with
  | 'V' :: ds => if ds ≠ [] ∧ ds.all isDigitChar then some ds else none
  | _ => none

/-- The left-to-right scan locating the leftmost position whose remainder
matches the separator-plus-marker tail `[\s\-_\/]*V\d+$`: this is the
position where both the fallback match regex and the `replace` regex anchor
their marker.  Returns everything before that position plus the digits; the
regex capture group 1 is the `lastSegment` of that prefix (handled in
`parseCottonVersionCore`). -/
def lazySplitGo : List Char → List Char → Option (List Char × List Char)
  | acc, rest =>
    match tailMarker rest with
    | some ds => some (acc.reverse, ds)
    | none =>
      match rest with
      | [] => none
      | c :: rest2 => lazySplitGo (c :: acc) rest2

def lazySplit (cs : List Char) : Option (List Char × List Char) :=
  lazySplitGo [] cs

/-- `trimmed.replace(/[\s\-_\/]*(V\d+)$/i, "")`: remove the leftmost-longest
separator-plus-marker suffix (exactly the part the lazy match drops). -/
def stripMarker (cs : List Char) : List Char :=
  match lazySplit cs with
  | some p => p.1
  | none => cs

structure ParsedVersion where
  groupKey : String
  versionNumber : Option ℕ
  raw : Option String
deriving DecidableEq

/-- `parseCottonVersion` on the normalized, nonempty character list.  The
fallback regex match succeeds at the position computed by `lazySplit`, but
its capture group 1 starts after the last line terminator before the marker
(`.` does not match `\n`/`\r`; `String.match` retries later start indices,
and the leftmost successful start is just past that terminator), so
`versionMatch[1]` is `lastSegment` of the scan prefix, while the
`replace`-based fallback (whose regex has no dot) removes the suffix from the
same marker position (`stripMarker`). -/
def parseCottonVersionCore (cs : List Char) : ParsedVersion :=
  match match22V cs with
  | some gv => ⟨⟨gv.1⟩, some gv.2, some ⟨cs⟩⟩
  | none =>
    match lazySplit cs with
    | some ad =>
      let base := jsTrimL (stripTrailingSeps (lastSegment ad.1))
      let normalizedBase := if base ≠ [] then base else jsTrimL (stripMarker cs)
      ⟨if normalizedBase ≠ [] then ⟨normalizedBase⟩ else ⟨cs⟩, some (digitsVal ad.2), some ⟨cs⟩⟩
    | none => ⟨⟨cs⟩, none, some ⟨cs⟩⟩

/-- `parseCottonVersion`: `null`/empty (or all-whitespace) codes map to the
`__NO_VERSION__` group; otherwise the normalized code is parsed by the
`YY_UL_VN` pattern, then by the trailing-marker pattern, else returned whole. -/
def parseCottonVersion (v : Option String) : ParsedVersion :=
  match v with
  | none => ⟨"__NO_VERSION__", none, none⟩
  | some s =>
    if s = "" then ⟨"__NO_VERSION__", none, none⟩
    else
      let cs := normChars s
      if cs = [] then ⟨"__NO_VERSION__", none, none⟩
      else parseCottonVersionCore cs

/-- Declarative trailing-marker split, following the claim's wording: the
marker is the final `V` followed only by (one or more) digits; the prefix is
everything before that `V`. -/
def claimSplit (cs : List Char) : Option (List Char × List Char) :=
  let rds := cs.reverse.takeWhile isDigitChar
  match cs.reverse.dropWhile isDigitChar with
  | 'V' :: rp => if rds ≠ [] then some (rp.reverse, rds.reverse) else none
  | _ => none

/-- Claim C4 as stated: on a trailing-marker match the group key is always
the prefix with trailing separators trimmed (even when that leaves the empty
string). -/
def claimParseStated (v : Option String) : ParsedVersion :=
  match v with
  | none => ⟨"__NO_VERSION__", none, none⟩
  | some s =>
    if s = "" then ⟨"__NO_VERSION__", none, none⟩
    else
      let cs := normChars s
      if cs = [] then ⟨"__NO_VERSION__", none, none⟩
      else
        match match22V cs with
        | some gv => ⟨⟨gv.1⟩, some gv.2, some ⟨cs⟩⟩
        | none =>
          match claimSplit cs with
          | some pd => ⟨⟨stripTrailingSeps pd.1⟩, some (digitsVal pd.2), some ⟨cs⟩⟩
          | none => ⟨⟨cs⟩, none, some ⟨cs⟩⟩

/-- Claim C4 amended: as stated, except that (a) the prefix before the
trailing marker is first truncated to the part after its last line
terminator (the regex dot cannot cross `\n`/`\r`, so matching resumes after
them), then separator-trimmed and whitespace-trimmed, and (b) when that
result is empty the group key falls back to the whole normalized code rather
than the empty string. -/
def claimParseAmended (v : Option String) : ParsedVersion :=
  match v with
  | none => ⟨"__NO_VERSION__", none, none⟩
  | some s =>
    if s = "" then ⟨"__NO_VERSION__", none, none⟩
    else
      let cs := normChars s
      if cs = [] then ⟨"__NO_VERSION__", none, none⟩
      else
        match match22V cs with
        | some gv => ⟨⟨gv.1⟩, some gv.2, some ⟨cs⟩⟩
        | none =>
          match claimSplit cs with
          | some pd =>
            let t := jsTrimL (lastSegment (stripTrailingSeps pd.1))
            ⟨if t ≠ [] then ⟨t⟩ else ⟨cs⟩, some (digitsVal pd.2), some ⟨cs⟩⟩
          | none => ⟨⟨cs⟩, none, some ⟨cs⟩⟩

/-! ## Period bucketing (`PERIOD_FORMATTERS` / `buildPeriodDescriptor`)

A successfully parsed `Date` is modelled by its (UTC) calendar components;
`none` stands for an absent or unparseable date value, for which every
formatter returns `null`.  The server is modelled in a UTC environment, where
`toISOString` (daily) and `getFullYear`/`getMonth`/`getDate`
(weekly/monthly) agree on the components. -/

structure YMD where
  year : ℕ
  month : ℕ
  day : ℕ
deriving DecidableEq

inductive ReportType where
  | daily : ReportType
  | weekly : ReportType
  | monthly : ReportType
deriving DecidableEq

/-- `.toString().padStart(2, "0")`. -/
def pad2 (n : ℕ) : String := if n < 10 then "0" ++ toString n else toString n

/-- The 4-digit year padding of `toISOString` (years 0-9999). -/
def pad4 (n : ℕ) : String :=
  if n < 10 then "000" ++ toString n
  else if n < 100 then "00" ++ toString n
  else if n < 1000 then "0" ++ toString n
  else toString n

/-- `Math.ceil(date.getDate() / 7)`. -/
def weekNum (day : ℕ) : ℕ := (⌈(day : ℚ) / 7⌉).toNat

/-- Days from the Unix epoch to a civil date (used for the daily
`sort_value`, the epoch-millisecond timestamp of the label). -/
def daysFromCivil (y m d : ℕ) : ℤ :=
  let y2 : ℤ := if m ≤ 2 then (y : ℤ) - 1 else (y : ℤ)
  let era : ℤ := (if 0 ≤ y2 then y2 else y2 - 399) / 400
  let yoe : ℤ := y2 - era * 400
  let mp : ℤ := ((m : ℤ) + 9) % 12
  let doy : ℤ := (153 * mp + 2) / 5 + (d : ℤ) - 1
  let doe : ℤ := yoe * 365 + yoe / 4 - yoe / 100 + doy
  era * 146097 + doe - 719468

def epochMillis (d : YMD) : ℤ := 86400000 * daysFromCivil d.year d.month d.day

structure PeriodDescriptor where
  label : Option String
  sortKey : Option String
  sortValue : Option ℤ
deriving DecidableEq

/-- `PERIOD_FORMATTERS[reportType](issueDate)`. -/
def periodLabel (d : Option YMD) (rt : ReportType) : Option String :=
  match d with
  | none => none
  | some d =>
    match rt with
    | .daily => some (pad4 d.year ++ "-" ++ pad2 d.month ++ "-" ++ pad2 d.day)
    | .weekly => some (toString d.year ++ "-" ++ pad2 d.month ++ "-W" ++ toString (weekNum d.day))
    | .monthly => some (toString d.year ++ "-" ++ pad2 d.month)

/-- `buildPeriodDescriptor(issueDate, reportType)`.  The source re-parses the
label it just built: weekly against `^(\d{4})-(\d{2})-W(\d{1,2})$`, monthly
against `^(\d{4})-(\d{2})$`, daily through `new Date(label).getTime()`.  For
labels produced by the formatters these matches reduce to digit-count
conditions on the components, spelled out here; a failed match keeps the
label as `sort_key` with a `null` `sort_value`.  Calendar-exact re-parse
validity for the daily timestamp is approximated by the component ranges
(no stated result depends on the daily `sort_value`). -/
def buildPeriodDescriptor (d : Option YMD) (rt : ReportType) : PeriodDescriptor :=
  match periodLabel d rt with
  | none => ⟨none, none, none⟩
  | some label =>
    match rt, d with
    | .weekly, some d =>
      if 1000 ≤ d.year ∧ d.year ≤ 9999 ∧ d.month ≤ 99 ∧ weekNum d.day ≤ 99 then
        ⟨some label,
         some (toString d.year ++ "-" ++ pad2 d.month ++ "-" ++ pad2 (weekNum d.day)),
         some ((d.year : ℤ) * 10000 + (d.month : ℤ) * 100 + (weekNum d.day : ℤ))⟩
      else ⟨some label, some label, none⟩
    | .monthly, some d =>
      if 1000 ≤ d.year ∧ d.year ≤ 9999 ∧ d.month ≤ 99 then
        ⟨some label, some label, some ((d.year : ℤ) * 100 + (d.month : ℤ))⟩
      else ⟨some label, some label, none⟩
    | .daily, some d =>
      if 1 ≤ d.month ∧ d.month ≤ 12 ∧ 1 ≤ d.day ∧ d.day ≤ 31 ∧ d.year ≤ 9999 then
        ⟨some label, some label, some (epochMillis d)⟩
      else ⟨some label, some label, none⟩
    | _, none => ⟨some label, some label, none⟩

/-! ## Daily continuity tracking

One entry of a daily continuity group, carrying exactly the fields the
continuity loop reads: the rendered mixing range (`entry.mixing_no`), the
group totals, the per-lot bale map, the parsed version number, the issue
timestamp (`entry.issue_date ? new Date(entry.issue_date).getTime() : null`)
and the maximum contributing mixing number (`?? Number.MAX_SAFE_INTEGER` in
the comparator). -/

structure ContRecord where
  mixing_no : String
  total_bales : ℚ
  no_of_lots : ℕ
  lotBales : List (String × ℚ)
  version : Option ℤ
  ts : JsTime
  maxMixNo : Option ℚ
deriving DecidableEq

/-- The continuity annotations written onto an entry:
`bale_change_over_percent`, `lot_change_over_percent`, `previous_mixing_no`. -/
structure ContResult where
  bale : Option ℚ
  lot : Option ℚ
  ref : Option String
deriving DecidableEq

def contNone : ContResult := ⟨none, none, none⟩

/-- The daily change computation against the immediate predecessor:
`round(absDiff / previous.total_bales × 100, 2)` when the predecessor total
is positive (else `null`), `round((new + removed) / previous.no_of_lots ×
100, 2)` when the predecessor lot count is positive (else `null`), and the
predecessor's rendered mixing range as `previous_mixing_no`. -/
def applyChanges (previous cur : ContRecord) : ContResult :=
  let ad := absDiffSum previous.lotBales cur.lotBales
  let nr : ℕ := newLotCount previous.lotBales cur.lotBales +
    remLotCount previous.lotBales cur.lotBales
  { bale :=
      if 0 < previous.total_bales then
        some (toFixed2 (ad / previous.total_bales * 100))
      else none
    lot :=
      if 0 < previous.no_of_lots then
        some (toFixed2 ((nr : ℚ) / (previous.no_of_lots : ℚ) * 100))
      else none
    ref := some previous.mixing_no }

/-- The `records.forEach` body for entries after the first: the running
`stats` hold the previous entry's version number and timestamp, and
`hasSameGroup` (`stats.lastVersion !== null && stats.lastTimestamp !== null`)
gates the change computation; note that a `NaN` timestamp passes this gate
(it is only `null` when the issue date was absent). -/
def continuityAux (lastVersion : Option ℤ) (lastTs : JsTime) (previous : ContRecord) :
    List ContRecord → List ContResult
  | [] => []
  | cur :: rest =>
    (if lastVersion ≠ none ∧ lastTs ≠ JsTime.null then applyChanges previous cur else contNone)
      :: continuityAux cur.version cur.ts cur rest

/-- The full continuity pass over one ordered signature group: the first
entry always gets `null`s (the stats start unset). -/
def continuityPass : List ContRecord → List ContResult
  | [] => []
  | r :: rs => contNone :: continuityAux r.version r.ts r rs

/-- Sign-valued helper for the numeric comparator branches. -/
def ratCmp (x y : ℚ) : ℤ := if x < y then -1 else if y < x then 1 else 0

/-- The continuity sort comparator: issue timestamp (strict `!==` test, then
nulls last, then numeric difference — `NaN` differences act as `0`), then
version number with `null` as `MAX_SAFE_INTEGER`, then the maximum
contributing mixing number likewise. -/
def contCmp (a b : ContRecord) : ℤ :=
  if JsTime.neq a.ts b.ts then
    if a.ts = JsTime.null then 1
    else if b.ts = JsTime.null then -1
    else timeSub a.ts b.ts
  else
    let va := a.version.getD maxSafeInteger
    let vb := b.version.getD maxSafeInteger
    if va ≠ vb then va - vb
    else
      let ma := a.maxMixNo.getD (maxSafeInteger : ℚ)
      let mb := b.maxMixNo.getD (maxSafeInteger : ℚ)
      if ma ≠ mb then ratCmp ma mb
      else 0

/-- `records.sort(comparator)` (stable, as `Array.prototype.sort` is). -/
def sortContRecords (records : List ContRecord) : List ContRecord :=
  records.mergeSort (fun a b => decide (contCmp a b ≤ 0))

/-! ## Weekly/monthly per-mixing change averaging

The rows feeding one weekly/monthly period group, with the raw issue date
already resolved through `issueDateLookup` (`ts` is `null` when the lookup
missed, `nan` when the date string does not parse). -/

structure WRow where
  mixing_no : String
  lot_no : String
  issue_bale : ℚ
  ts : JsTime
deriving DecidableEq

/-- One `mixMap` aggregate: per-mixing bale total, per-lot bale map, and the
issue timestamp of the first row seen for that mixing number. -/
structure MixAgg where
  mixing_no : String
  totalBales : ℚ
  lotMap : List (String × ℚ)
  ts : JsTime
deriving DecidableEq

/-- One iteration of the `mixMap` building loop: skip rows with a falsy
mixing number, create the aggregate on first sight (capturing that row's
issue date), then add the bales to the total and, when `lot_no` is truthy,
to the lot map. -/
def addWRow (acc : List MixAgg) (r : WRow) : List MixAgg :=
  if r.mixing_no = "" then acc
  else
    let acc2 :=
      if acc.any (fun m => m.mixing_no == r.mixing_no) then acc
      else acc ++ [{ mixing_no := r.mixing_no, totalBales := 0, lotMap := [], ts := r.ts }]
    acc2.map (fun m =>
      if m.mixing_no == r.mixing_no then
        { m with
          totalBales := m.totalBales + r.issue_bale
          lotMap := if r.lot_no == "" then m.lotMap else aupdate m.lotMap r.lot_no r.issue_bale }
      else m)

/-- String comparison modelling `localeCompare` as code-point order. -/
def strCmp (a b : String) : ℤ := if a < b then -1 else if b < a then 1 else 0

/-- The `mixingList` sort comparator: issue timestamp ascending with nulls
last (`NaN` differences act as `0`), tie-broken by numeric mixing number when
both parse, else by string comparison. -/
def mixCmp (a b : MixAgg) : ℤ :=
  if JsTime.neq a.ts b.ts then
    if a.ts = JsTime.null then 1
    else if b.ts = JsTime.null then -1
    else timeSub a.ts b.ts
  else
    match jsToNumber a.mixing_no, jsToNumber b.mixing_no with
    | some x, some y => ratCmp x y
    | _, _ => strCmp a.mixing_no b.mixing_no

/-- `Object.values(mixMap)` sorted by the comparator.  The model keeps the
map in first-insertion order (the JavaScript integer-key reordering of
`Object.values` can only affect ties of the subsequent sort, and no stated
result involves such a tie). -/
def sortedMixList (rows : List WRow) : List MixAgg :=
  (rows.foldl addWRow []).mergeSort (fun a b => decide (mixCmp a b ≤ 0))

/-- One pairwise bale-change contribution (`some v` = pushed onto
`baleChanges`): the daily formula when the predecessor total is positive;
when the predecessor has recorded lots but a zero total, `0` for a zero
difference and `100` otherwise; skipped when the predecessor has no recorded
lots. -/
def pairBale (prev cur : MixAgg) : Option ℚ :=
  let ad := absDiffSum prev.lotMap cur.lotMap
  if 0 < prev.totalBales then some (ad / prev.totalBales * 100)
  else if prev.lotMap ≠ [] then (if ad = 0 then some 0 else some 100)
  else none

/-- One pairwise lot-change contribution (`some v` = pushed onto
`lotChanges`): `(new + removed) / previousLotCount × 100` when the
predecessor has lots, where — unlike the daily loop's exact-zero tests — a
lot counts as new (resp. removed) when its previous (resp. current) recorded
quantity is not positive while the other side's is positive
(`hasOwnProperty && value > 0`); the `(prevHasRows && current empty)`
fallback branch of the source is kept although its guard is unsatisfiable
(`prevHasRows` is exactly a nonempty lot map). -/
def pairLot (prev cur : MixAgg) : Option ℚ :=
  if 0 < prev.lotMap.length then
    some (((wkNewLotCount prev.lotMap cur.lotMap + wkRemLotCount prev.lotMap cur.lotMap : ℕ) : ℚ) /
      (prev.lotMap.length : ℚ) * 100)
  else if prev.lotMap ≠ [] ∧ cur.lotMap = [] then some 0
  else none

/-- Claim C3's asserted pairwise bale rule ("the same bale/lot change
formulas" as the daily continuity loop, which yields `null` whenever the
predecessor total is not positive).  Stated from the claim's words, for
comparison against the source's `pairBale`. -/
def c3SpecPairBale (prev cur : MixAgg) : Option ℚ :=
  if 0 < prev.totalBales then
    some (toFixed2 (absDiffSum prev.lotMap cur.lotMap / prev.totalBales * 100))
  else none

/-- Claim C3's asserted pairwise lot rule ("the same bale/lot change
formulas" as the daily continuity loop): the daily exact-zero new/removed
counts over the predecessor's lot count.  Stated from the claim's words, for
comparison against the source's `pairLot`. -/
def c3SpecPairLot (prev cur : MixAgg) : Option ℚ :=
  if 0 < prev.lotMap.length then
    some (toFixed2 (((newLotCount prev.lotMap cur.lotMap +
      remLotCount prev.lotMap cur.lotMap : ℕ) : ℚ) / (prev.lotMap.length : ℚ) * 100))
  else none

/-- The `for (let i = 1; i < mixingList.length; i++)` loop, collecting the
`baleChanges` and `lotChanges` arrays in order. -/
def collectChanges : List MixAgg → List ℚ × List ℚ
  | [] => ([], [])
  | [_] => ([], [])
  | p :: c :: rest =>
    let tailChanges := collectChanges (c :: rest)
    ((pairBale p c).toList ++ tailChanges.1, (pairLot p c).toList ++ tailChanges.2)

/-- `changes.length > 0 ? +(avg).toFixed(2) : null`. -/
def avgChange (l : List ℚ) : Option ℚ :=
  if l = [] then none else some (toFixed2 (l.sum / (l.length : ℚ)))

/-- The period-local `bale_change_over_percent` / `lot_change_over_percent`
of one weekly/monthly group. -/
def weeklyPeriodChanges (rows : List WRow) : Option ℚ × Option ℚ :=
  let ch := collectChanges (sortedMixList rows)
  (avgChange ch.1, avgChange ch.2)

/-! ## Weekly/monthly cross-period continuity -/

/-- A weekly/monthly summary entry as the continuity pass sees it: the
period-local change values are already in place and `previous_mixing_no`
starts `null` (source line setting `weighted.previous_mixing_no = null`). -/
structure WEntry where
  mixing_no : String
  bale : Option ℚ
  lot : Option ℚ
  ref : Option String
  version : Option ℤ
  ts : JsTime
  total_bales : ℚ
  no_of_lots : ℕ
  lotBales : List (String × ℚ)
deriving DecidableEq

/-- The weekly `else` branch against the immediate predecessor: the
continuity-based overwrite runs only when both period-local values are
absent; otherwise the period-local values are kept and `previous_mixing_no`
is filled only if still unset. -/
def weeklyApply (previous cur : WEntry) : WEntry :=
  if cur.bale = none ∧ cur.lot = none then
    { cur with
      bale :=
        if 0 < previous.total_bales then
          some (toFixed2 (absDiffSum previous.lotBales cur.lotBales / previous.total_bales * 100))
        else none
      lot :=
        if 0 < previous.no_of_lots then
          some (toFixed2
            (((newLotCount previous.lotBales cur.lotBales +
               remLotCount previous.lotBales cur.lotBales : ℕ) : ℚ) /
              (previous.no_of_lots : ℚ) * 100))
        else none
      ref := some previous.mixing_no }
  else
    { cur with
      ref :=
        match cur.ref with
        | some r0 => some r0
        | none => some previous.mixing_no }

/-- The weekly `records.forEach` with its running stats; the first-entry (or
unset-stats) branch keeps every already-computed field (`x = x ?? null`). -/
def weeklyContinuityAux (lastVersion : Option ℤ) (lastTs : JsTime) (previous : WEntry) :
    List WEntry → List WEntry
  | [] => []
  | cur :: rest =>
    let cur2 := if lastVersion ≠ none ∧ lastTs ≠ JsTime.null then weeklyApply previous cur else cur
    cur2 :: weeklyContinuityAux cur2.version cur2.ts cur2 rest

def weeklyContinuityPass : List WEntry → List WEntry
  | [] => []
  | r :: rs => r :: weeklyContinuityAux r.version r.ts r rs

/-! ## Daily blend resolver

One contributing row of the blend computation, after the joins the source
performs (`mixRow.lot_no → lot.variety → varietyMap[variety]`): rows whose
lot or variety mapping is missing are skipped before this point.
`issue_bale` is `Number(mixRow.issue_bale) || 0` and `weight` is
`Number(mc.weight) || 0`. -/

structure BlendRow where
  cotton_name : String
  issue_bale : ℚ
  weight : ℚ
deriving DecidableEq

/-- `cottonContributions`: per-cotton-name sums of `issueBale * weight`. -/
def buildContribs (rows : List BlendRow) : List (String × ℚ) :=
  rows.foldl (fun m r => aupdate m r.cotton_name (r.issue_bale * r.weight)) []

/-- `totalWeightedSum`: the running total over all contributing rows. -/
def totalWeightedSum (rows : List BlendRow) : ℚ :=
  (rows.map (fun r => r.issue_bale * r.weight)).sum

/-- Case-insensitive ascending name order
(`localeCompare(..., { sensitivity: "base" })`, modelled as uppercase
code-point order). -/
def nameLe (a b : String) : Bool := decide (⟨a.data.map upChar⟩ ≤ (⟨b.data.map upChar⟩ : String))

/-- The rendered name list: contributing names with positive contributions,
sorted; if none are positive, the deduplicated sorted catalogue of mapped
cotton names (`mixingCodeData`) with all percentages left at `0`. -/
def blendNames (contribs : List (String × ℚ)) (catalog : List String) : List String :=
  let names := ((contribs.filter (fun p => decide (0 < p.2))).map Prod.fst).mergeSort nameLe
  if names = [] then (catalog.filter (fun n => decide (n ≠ ""))).dedup.mergeSort nameLe
  else names

/-- The `blendPercentages` array: `Math.round(contribution / total × 100)`
when the total is positive and the name's contribution is truthy, else `0`. -/
def blendPercentages (rows : List BlendRow) (catalog : List String) : List ℤ :=
  let contribs := buildContribs rows
  let total := totalWeightedSum rows
  (blendNames contribs catalog).map (fun name =>
    if 0 < total ∧ alookup contribs name ≠ 0 then
      jround (alookup contribs name / total * 100)
    else 0)

/-! ## Request validation (`report_type`) -/

def validReportTypes : List String := ["daily", "weekly", "monthly"]

def invalidReportTypeMsg : String :=
  "Invalid report_type. Must be \x27daily\x27, \x27weekly\x27, or \x27monthly\x27."

/-- Outcome of the endpoint as far as the validation gate is concerned:
either the 400 response, or whatever the rest of the handler (record
fetching and aggregation) produces. -/
inductive HandlerResult (α : Type) where
  | badRequest : String → HandlerResult α
  | result : α → HandlerResult α
deriving DecidableEq

/-- The head of the `/api/cotton-mixing-summary` handler: `report_type`
defaults to `"daily"` when absent (destructuring default), then the
membership check runs before anything else; the remainder of the handler —
every fetch and all aggregation — is abstracted as `pipeline`, which is
reached only after validation succeeds. -/
def handleCottonMixingSummary {α : Type} (report_type : Option String)
    (pipeline : String → HandlerResult α) : HandlerResult α :=
  let rt := report_type.getD "daily"
  if rt ∈ validReportTypes then pipeline rt
  else .badRequest invalidReportTypeMsg

/-! ## Concrete inputs used by the theorems below -/

/-- A lot result with the given lot number, `mic` and `min_mic`; every other
metric missing. -/
def mkLot (lot : String) (micV : Option ℚ) (minMicV : Option ℚ) : LotResult :=
  ⟨lot, "", micV, none, none, none, none, none, none, none, none, none, minMicV, none, 0⟩

/-- A daily mixing row of mixing `10`, blend `"A"`. -/
def mkRowA (lot : String) (bales : ℚ) : MixRow := ⟨"10", "A", "U1", "L1", lot, bales⟩

def c1Lots : List LotResult := [mkLot "LOT1" (some 4) none, mkLot "LOT2" (some 5) none]

def c1Rows : List MixRow := [mkRowA "LOT1" 100, mkRowA "LOT2" 50]

def c2Lots : List LotResult := [mkLot "LOT1" none (some (7 / 2))]

def c2Rows : List MixRow := [mkRowA "LOT1" 0]

def c2LotsB : List LotResult := [mkLot "LOT1" (some 4) none, mkLot "LOT2" (some 5) none]

def c2RowsB : List MixRow := [mkRowA "LOT1" 10, mkRowA "LOT2" (-10)]

def c6A : ContRecord := ⟨"5", 10, 1, [("L1", 10)], none, .val 100, some 5⟩

def c6B : ContRecord := ⟨"6", 8, 1, [("L1", 5)], some 1, .val 200, some 6⟩

def c6WA : ContRecord := ⟨"7", 10, 2, [("L1", 6), ("L2", 4)], some 1, .val 100, some 7⟩

def c6WB : ContRecord := ⟨"8", 12, 2, [("L1", 8), ("L3", 4)], some 2, .val 200, some 8⟩

def c7P : ContRecord := ⟨"3", 20, 1, [("L9", 20)], none, .val 100, some 3⟩

def c7Q : ContRecord := ⟨"4", 20, 1, [("L9", 20)], some 2, .val 200, some 4⟩

def c7E1 : ContRecord := ⟨"1", 10, 1, [("LA", 10)], some 1, .val 100, some 1⟩

def c7E2 : ContRecord := ⟨"2", 10, 1, [("LA", 10)], some 1, .val 200, some 2⟩

def c7E3 : ContRecord := ⟨"3", 10, 1, [("LA", 10)], some 1, .val 300, some 3⟩

def c3R1 : WRow := ⟨"1", "LX", 0, .val 100⟩

def c3R2 : WRow := ⟨"2", "LX", 10, .val 200⟩

def c3CexRows : List WRow := [c3R1, c3R2]

def c3Agg1 : MixAgg := ⟨"1", 0, [("LX", 0)], .val 100⟩

def c3Agg2 : MixAgg := ⟨"2", 10, [("LX", 10)], .val 200⟩

/-- Predecessor sub-entry whose single lot carries a negative stored
quantity (bales issued net negative). -/
def c3NegP : MixAgg := ⟨"1", -5, [("L1", -5)], .val 100⟩

/-- Its successor, with the same lot now positive. -/
def c3NegC : MixAgg := ⟨"2", 3, [("L1", 3)], .val 200⟩

def c3W1 : WEntry := ⟨"1-3", some 5, some 10, none, some 1, .nan, 100, 3, [("L1", 100)]⟩

def c3W2 : WEntry := ⟨"4-6", some 7, none, none, some 2, .nan, 50, 2, [("L1", 50)]⟩

def c3WRows : List WRow := [⟨"1", "LA", 4, .val 100⟩, ⟨"2", "LA", 6, .val 200⟩]

def c8Rows : List BlendRow :=
  [⟨"A", 104, 1⟩, ⟨"B", 104, 1⟩, ⟨"C", 104, 1⟩, ⟨"D", 104, 1⟩, ⟨"E", 584, 1⟩]

def c10R1 : MixRow := ⟨"1|X", "Y", "U1", "L1", "LOTA", 5⟩

def c10R2 : MixRow := ⟨"1", "X|Y", "U1", "L1", "LOTB", 5⟩

def c9Pipeline : String → HandlerResult ℕ := fun _ => .result 0

/-- Closed form of one row's contribution to the collected `min_mic` list. -/
def rowMinMicVals (lotResults : List LotResult) (r : MixRow) : List ℚ :=
  match lotResults.find? (fun l => l.lot_no == r.lot_no) with
  | none => []
  | some lot =>
    match lot.min_mic with
    | some v => [v]
    | none => []

/-- Placeholder record for out-of-bounds `List.getD` indexing in statements
about the continuity pass (never reached under the stated bounds). -/
def defaultCont : ContRecord := ⟨"", 0, 0, [], none, JsTime.null, none⟩

/-- Placeholder entry for out-of-bounds `List.getD` indexing in statements
about the weekly continuity pass. -/
def defaultWEntry : WEntry := ⟨"", none, none, none, none, JsTime.null, 0, 0, []⟩

/-! ## Fold/closed-form correspondence for the weighted aggregation -/

theorem foldl_proj (lots : List LotResult) (f : WeightedAcc → ℚ) (g : MixRow → ℚ)
    (hstep : ∀ acc r, f (processRow lots acc r) = f acc + g r) :
    ∀ (rows : List MixRow) (acc : WeightedAcc),
      f (rows.foldl (processRow lots) acc) = f acc + (rows.map g).sum := by
  intro rows
  induction rows with
  | nil => intro acc; simp
  | cons r rows ih =>
    intro acc
    rw [List.foldl_cons, List.map_cons, List.sum_cons, ih, hstep]
    ring

theorem foldl_proj_list (lots : List LotResult) (f : WeightedAcc → List ℚ)
    (g : MixRow → List ℚ)
    (hstep : ∀ acc r, f (processRow lots acc r) = f acc ++ g r) :
    ∀ (rows : List MixRow) (acc : WeightedAcc),
      f (rows.foldl (processRow lots) acc) = f acc ++ (rows.map g).flatten := by
  intro rows
  induction rows with
  | nil => intro acc; simp
  | cons r rows ih =>
    intro acc
    rw [List.foldl_cons, List.map_cons, List.flatten_cons, ih, hstep, List.append_assoc]

theorem processRow_mic (lots : List LotResult) (acc : WeightedAcc) (r : MixRow) :
    (processRow lots acc r).mic = acc.mic + rowMetric lots (fun l => l.mic) r := by
  unfold processRow rowMetric
  cases lots.find? (fun l => l.lot_no == r.lot_no) <;> simp

theorem processRow_str (lots : List LotResult) (acc : WeightedAcc) (r : MixRow) :
    (processRow lots acc r).str = acc.str + rowMetric lots (fun l => l.str) r := by
  unfold processRow rowMetric
  cases lots.find? (fun l => l.lot_no == r.lot_no) <;> simp

theorem processRow_uhml (lots : List LotResult) (acc : WeightedAcc) (r : MixRow) :
    (processRow lots acc r).uhml = acc.uhml + rowMetric lots (fun l => l.uhml) r := by
  unfold processRow rowMetric
  cases lots.find? (fun l => l.lot_no == r.lot_no) <;> simp

theorem processRow_rd (lots : List LotResult) (acc : WeightedAcc) (r : MixRow) :
    (processRow lots acc r).rd = acc.rd + rowMetric lots (fun l => l.rd) r := by
  unfold processRow rowMetric
  cases lots.find? (fun l => l.lot_no == r.lot_no) <;> simp

theorem processRow_plus_b (lots : List LotResult) (acc : WeightedAcc) (r : MixRow) :
    (processRow lots acc r).plus_b = acc.plus_b + rowMetric lots (fun l => l.plus_b) r := by
  unfold processRow rowMetric
  cases lots.find? (fun l => l.lot_no == r.lot_no) <;> simp

theorem processRow_sf (lots : List LotResult) (acc : WeightedAcc) (r : MixRow) :
    (processRow lots acc r).sf = acc.sf + rowMetric lots (fun l => l.sf) r := by
  unfold processRow rowMetric
  cases lots.find? (fun l => l.lot_no == r.lot_no) <;> simp

theorem processRow_ui (lots : List LotResult) (acc : WeightedAcc) (r : MixRow) :
    (processRow lots acc r).ui = acc.ui + rowMetric lots (fun l => l.ui) r := by
  unfold processRow rowMetric
  cases lots.find? (fun l => l.lot_no == r.lot_no) <;> simp

theorem processRow_elong (lots : List LotResult) (acc : WeightedAcc) (r : MixRow) :
    (processRow lots acc r).elong = acc.elong + rowMetric lots (fun l => l.elong) r := by
  unfold processRow rowMetric
  cases lots.find? (fun l => l.lot_no == r.lot_no) <;> simp

theorem processRow_trash (lots : List LotResult) (acc : WeightedAcc) (r : MixRow) :
    (processRow lots acc r).trash = acc.trash + rowMetric lots (fun l => l.trash) r := by
  unfold processRow rowMetric
  cases lots.find? (fun l => l.lot_no == r.lot_no) <;> simp

theorem processRow_moist (lots : List LotResult) (acc : WeightedAcc) (r : MixRow) :
    (processRow lots acc r).moist = acc.moist + rowMetric lots (fun l => l.moist) r := by
  unfold processRow rowMetric
  cases lots.find? (fun l => l.lot_no == r.lot_no) <;> simp

theorem processRow_minMicNum (lots : List LotResult) (acc : WeightedAcc) (r : MixRow) :
    (processRow lots acc r).minMicNum = acc.minMicNum + rowMinMic lots r := by
  unfold processRow rowMinMic
  cases lots.find? (fun l => l.lot_no == r.lot_no) <;> simp

theorem processRow_minMicValues (lots : List LotResult) (acc : WeightedAcc) (r : MixRow) :
    (processRow lots acc r).minMicValues = acc.minMicValues ++ rowMinMicVals lots r := by
  unfold processRow rowMinMicVals
  cases lots.find? (fun l => l.lot_no == r.lot_no) <;> simp

theorem agg_mic (lots : List LotResult) (rows : List MixRow) :
    (aggregateRows lots rows).mic = (rows.map (rowMetric lots (fun l => l.mic))).sum := by
  simpa [aggregateRows, initAcc] using
    foldl_proj lots (fun a => a.mic) (rowMetric lots (fun l => l.mic))
      (processRow_mic lots) rows initAcc

theorem agg_str (lots : List LotResult) (rows : List MixRow) :
    (aggregateRows lots rows).str = (rows.map (rowMetric lots (fun l => l.str))).sum := by
  simpa [aggregateRows, initAcc] using
    foldl_proj lots (fun a => a.str) (rowMetric lots (fun l => l.str))
      (processRow_str lots) rows initAcc

theorem agg_uhml (lots : List LotResult) (rows : List MixRow) :
    (aggregateRows lots rows).uhml = (rows.map (rowMetric lots (fun l => l.uhml))).sum := by
  simpa [aggregateRows, initAcc] using
    foldl_proj lots (fun a => a.uhml) (rowMetric lots (fun l => l.uhml))
      (processRow_uhml lots) rows initAcc

theorem agg_rd (lots : List LotResult) (rows : List MixRow) :
    (aggregateRows lots rows).rd = (rows.map (rowMetric lots (fun l => l.rd))).sum := by
  simpa [aggregateRows, initAcc] using
    foldl_proj lots (fun a => a.rd) (rowMetric lots (fun l => l.rd))
      (processRow_rd lots) rows initAcc

theorem agg_plus_b (lots : List LotResult) (rows : List MixRow) :
    (aggregateRows lots rows).plus_b = (rows.map (rowMetric lots (fun l => l.plus_b))).sum := by
  simpa [aggregateRows, initAcc] using
    foldl_proj lots (fun a => a.plus_b) (rowMetric lots (fun l => l.plus_b))
      (processRow_plus_b lots) rows initAcc

theorem agg_sf (lots : List LotResult) (rows : List MixRow) :
    (aggregateRows lots rows).sf = (rows.map (rowMetric lots (fun l => l.sf))).sum := by
  simpa [aggregateRows, initAcc] using
    foldl_proj lots (fun a => a.sf) (rowMetric lots (fun l => l.sf))
      (processRow_sf lots) rows initAcc

theorem agg_ui (lots : List LotResult) (rows : List MixRow) :
    (aggregateRows lots rows).ui = (rows.map (rowMetric lots (fun l => l.ui))).sum := by
  simpa [aggregateRows, initAcc] using
    foldl_proj lots (fun a => a.ui) (rowMetric lots (fun l => l.ui))
      (processRow_ui lots) rows initAcc

theorem agg_elong (lots : List LotResult) (rows : List MixRow) :
    (aggregateRows lots rows).elong = (rows.map (rowMetric lots (fun l => l.elong))).sum := by
  simpa [aggregateRows, initAcc] using
    foldl_proj lots (fun a => a.elong) (rowMetric lots (fun l => l.elong))
      (processRow_elong lots) rows initAcc

theorem agg_trash (lots : List LotResult) (rows : List MixRow) :
    (aggregateRows lots rows).trash = (rows.map (rowMetric lots (fun l => l.trash))).sum := by
  simpa [aggregateRows, initAcc] using
    foldl_proj lots (fun a => a.trash) (rowMetric lots (fun l => l.trash))
      (processRow_trash lots) rows initAcc

theorem agg_moist (lots : List LotResult) (rows : List MixRow) :
    (aggregateRows lots rows).moist = (rows.map (rowMetric lots (fun l => l.moist))).sum := by
  simpa [aggregateRows, initAcc] using
    foldl_proj lots (fun a => a.moist) (rowMetric lots (fun l => l.moist))
      (processRow_moist lots) rows initAcc

theorem agg_minMicNum (lots : List LotResult) (rows : List MixRow) :
    (aggregateRows lots rows).minMicNum = (rows.map (rowMinMic lots)).sum := by
  simpa [aggregateRows, initAcc] using
    foldl_proj lots (fun a => a.minMicNum) (rowMinMic lots)
      (processRow_minMicNum lots) rows initAcc

theorem agg_minMicValues (lots : List LotResult) (rows : List MixRow) :
    (aggregateRows lots rows).minMicValues = (rows.map (rowMinMicVals lots)).flatten := by
  simpa [aggregateRows, initAcc] using
    foldl_proj_list lots (fun a => a.minMicValues) (rowMinMicVals lots)
      (processRow_minMicValues lots) rows initAcc

/-- Claim C1: for every group (daily or weekly/monthly) with a positive bale
total, each of the ten weighted metrics equals
`round(Σ(bales_i · value_i) / total_bales, 2)`, where a row whose lot result
or metric value is missing/non-numeric contributes `0` to the numerator while
its bales still count in `total_bales`. -/
theorem claim_c1 (lotResults : List LotResult) (rows : List MixRow)
    (h : 0 < totalBalesOf rows) :
    (dailySummary lotResults rows).total_bales = totalBalesOf rows ∧
    (dailySummary lotResults rows).mic =
      toFixed2 ((rows.map (rowMetric lotResults (fun l => l.mic))).sum / totalBalesOf rows) ∧
    (dailySummary lotResults rows).str =
      toFixed2 ((rows.map (rowMetric lotResults (fun l => l.str))).sum / totalBalesOf rows) ∧
    (dailySummary lotResults rows).uhml =
      toFixed2 ((rows.map (rowMetric lotResults (fun l => l.uhml))).sum / totalBalesOf rows) ∧
    (dailySummary lotResults rows).rd =
      toFixed2 ((rows.map (rowMetric lotResults (fun l => l.rd))).sum / totalBalesOf rows) ∧
    (dailySummary lotResults rows).plus_b =
      toFixed2 ((rows.map (rowMetric lotResults (fun l => l.plus_b))).sum / totalBalesOf rows) ∧
    (dailySummary lotResults rows).sf =
      toFixed2 ((rows.map (rowMetric lotResults (fun l => l.sf))).sum / totalBalesOf rows) ∧
    (dailySummary lotResults rows).ui =
      toFixed2 ((rows.map (rowMetric lotResults (fun l => l.ui))).sum / totalBalesOf rows) ∧
    (dailySummary lotResults rows).elong =
      toFixed2 ((rows.map (rowMetric lotResults (fun l => l.elong))).sum / totalBalesOf rows) ∧
    (dailySummary lotResults rows).trash =
      toFixed2 ((rows.map (rowMetric lotResults (fun l => l.trash))).sum / totalBalesOf rows) ∧
    (dailySummary lotResults rows).moist =
      toFixed2 ((rows.map (rowMetric lotResults (fun l => l.moist))).sum / totalBalesOf rows) := by
  unfold dailySummary
  simp [if_pos h, agg_mic, agg_str, agg_uhml, agg_rd, agg_plus_b, agg_sf, agg_ui,
    agg_elong, agg_trash, agg_moist]

/-- Witness for C1 at the spec's end-to-end example: two contributing rows
with bales `[100, 50]` and `mic` values `[4.0, 5.0]` give `total_bales = 150`
and weighted `mic = 4.33`. -/
theorem claim_c1_witness :
    0 < totalBalesOf c1Rows ∧
    (dailySummary c1Lots c1Rows).total_bales = 150 ∧
    (dailySummary c1Lots c1Rows).mic = 433 / 100 := by
  have h : 0 < totalBalesOf c1Rows := by norm_num [totalBalesOf, c1Rows, mkRowA]
  have hc := claim_c1 c1Lots c1Rows h
  refine ⟨h, ?_, ?_⟩
  · rw [hc.1]; norm_num [totalBalesOf, c1Rows, mkRowA]
  · rw [hc.2.1]
    simp [totalBalesOf, c1Rows, c1Lots, mkRowA, mkLot, rowMetric, toFixed2, jround]
    norm_num

/-- Counterexample to claim C2: a group with `total_bales = 0` can still
report a non-null `min_mic` (a zero-bale row whose lot carries a numeric
`min_mic` of `3.5`), and with a negative bale quantity a weighted metric can
be nonzero (bales `[10, -10]` with `mic` values `[4, 5]` leave the
accumulated numerator `-10` undivided). -/
theorem claim_c2_cex :
    (dailySummary c2Lots c2Rows).total_bales = 0 ∧
    (dailySummary c2Lots c2Rows).min_mic ≠ none ∧
    (dailySummary c2LotsB c2RowsB).total_bales = 0 ∧
    (dailySummary c2LotsB c2RowsB).mic ≠ 0 := by
  refine ⟨?_, ?_, ?_, ?_⟩
  · simp [dailySummary, totalBalesOf, c2Rows, c2Lots, mkRowA, mkLot]
  · simp [dailySummary, totalBalesOf, c2Rows, c2Lots, mkRowA, mkLot,
      aggregateRows, processRow, initAcc, toFixed2, jround]
  · simp [dailySummary, totalBalesOf, c2RowsB, c2LotsB, mkRowA, mkLot]
  · simp [dailySummary, totalBalesOf, c2RowsB, c2LotsB, mkRowA, mkLot,
      aggregateRows, processRow, initAcc, toFixed2, jround]
    norm_num

/-- Claim C2 amended: for a group with `total_bales = 0` and nonnegative bale
quantities, all ten weighted metrics are `0` and `min_mic_percent` is `0`;
`min_mic` is `null` exactly when no matched lot supplies a numeric `min_mic`
(a zero-bale group can still report one). -/
theorem claim_c2 (lotResults : List LotResult) (rows : List MixRow)
    (h0 : totalBalesOf rows = 0) (hnn : ∀ r ∈ rows, 0 ≤ r.issue_bale) :
    (dailySummary lotResults rows).mic = 0 ∧
    (dailySummary lotResults rows).str = 0 ∧
    (dailySummary lotResults rows).uhml = 0 ∧
    (dailySummary lotResults rows).rd = 0 ∧
    (dailySummary lotResults rows).plus_b = 0 ∧
    (dailySummary lotResults rows).sf = 0 ∧
    (dailySummary lotResults rows).ui = 0 ∧
    (dailySummary lotResults rows).elong = 0 ∧
    (dailySummary lotResults rows).trash = 0 ∧
    (dailySummary lotResults rows).moist = 0 ∧
    (dailySummary lotResults rows).min_mic_percent = 0 ∧
    ((dailySummary lotResults rows).min_mic = none ↔
      (rows.map (rowMinMicVals lotResults)).flatten = []) := by
  have hz : ∀ r ∈ rows, r.issue_bale = 0 := by
    intro r hr
    have hmem : r.issue_bale ∈ rows.map (fun r => r.issue_bale) := List.mem_map_of_mem _ hr
    have hle : r.issue_bale ≤ (rows.map (fun r => r.issue_bale)).sum := by
      apply List.single_le_sum _ _ hmem
      intro x hx
      obtain ⟨q, hq, rfl⟩ := List.mem_map.mp hx
      exact hnn q hq
    have : (rows.map (fun r => r.issue_bale)).sum = 0 := h0
    exact le_antisymm (this ▸ hle) (hnn r hr)
  have hsum : ∀ get : LotResult → Option ℚ,
      (rows.map (rowMetric lotResults get)).sum = 0 := by
    intro get
    apply List.sum_eq_zero
    intro x hx
    obtain ⟨r, hr, rfl⟩ := List.mem_map.mp hx
    unfold rowMetric
    cases lotResults.find? (fun l => l.lot_no == r.lot_no) <;> simp [hz r hr]
  have hminmic : (dailySummary lotResults rows).min_mic = none ↔
      (rows.map (rowMinMicVals lotResults)).flatten = [] := by
    simp only [dailySummary, agg_minMicValues]
    cases h : (rows.map (rowMinMicVals lotResults)).flatten <;> simp [h]
  refine ⟨?_, ?_, ?_, ?_, ?_, ?_, ?_, ?_, ?_, ?_, ?_, hminmic⟩ <;>
    simp [dailySummary, h0, agg_mic, agg_str, agg_uhml, agg_rd, agg_plus_b, agg_sf,
      agg_ui, agg_elong, agg_trash, agg_moist, hsum]

/-- Witness for the amended C2 at a concrete zero-bale group. -/
theorem claim_c2_witness :
    totalBalesOf c2Rows = 0 ∧ (∀ r ∈ c2Rows, 0 ≤ r.issue_bale) ∧
    (dailySummary c2Lots c2Rows).mic = 0 ∧
    (dailySummary c2Lots c2Rows).min_mic_percent = 0 := by
  have h0 : totalBalesOf c2Rows = 0 := by norm_num [totalBalesOf, c2Rows, mkRowA]
  have hnn : ∀ r ∈ c2Rows, 0 ≤ r.issue_bale := by
    intro r hr
    simp only [c2Rows, mkRowA, List.mem_singleton] at hr
    subst hr
    norm_num
  have hc := claim_c2 c2Lots c2Rows h0 hnn
  exact ⟨h0, hnn, hc.1, hc.2.2.2.2.2.2.2.2.2.2.1⟩

/-- Claim C9: a `report_type` outside {daily, weekly, monthly} is rejected
with the 400 validation error before anything else runs — the outcome is
independent of what the fetch/aggregation pipeline would produce — and an
absent `report_type` defaults to `"daily"`. -/
theorem claim_c9 {α : Type} :
    (∀ rt : Option String, rt.getD "daily" ∉ validReportTypes →
      ∀ pipeline : String → HandlerResult α,
        handleCottonMixingSummary rt pipeline = .badRequest invalidReportTypeMsg) ∧
    (∀ pipeline : String → HandlerResult α,
      handleCottonMixingSummary none pipeline = pipeline "daily") := by
  constructor
  · intro rt h pipeline
    simp [handleCottonMixingSummary, h]
  · intro pipeline
    simp [handleCottonMixingSummary, validReportTypes]

/-- Witness for C9: `report_type = "yearly"` is rejected whatever the
pipeline, and an absent `report_type` runs the pipeline with `"daily"`. -/
theorem claim_c9_witness :
    (some "yearly" : Option String).getD "daily" ∉ validReportTypes ∧
    handleCottonMixingSummary (some "yearly") c9Pipeline = .badRequest invalidReportTypeMsg ∧
    handleCottonMixingSummary none c9Pipeline = c9Pipeline "daily" := by
  have h : (some "yearly" : Option String).getD "daily" ∉ validReportTypes := by
    simp [validReportTypes]
  exact ⟨h, (@claim_c9 ℕ).1 _ h _, (@claim_c9 ℕ).2 _⟩

/-- `Math.ceil(day / 7)` equals natural ceiling division. -/
theorem weekNum_eq (n : ℕ) : weekNum n = (n + 6) / 7 := by
  unfold weekNum
  have h1 : 7 * ((n + 6) / 7) ≤ n + 6 ∧ n + 6 < 7 * ((n + 6) / 7) + 7 := by omega
  have hceil : (⌈(n : ℚ) / 7⌉ : ℤ) = (((n + 6) / 7 : ℕ) : ℤ) := by
    set k : ℕ := (n + 6) / 7 with hk
    have hc1 : (7 : ℚ) * (k : ℚ) ≤ (n : ℚ) + 6 := by exact_mod_cast h1.1
    have hc2 : (n : ℚ) + 6 < 7 * (k : ℚ) + 7 := by exact_mod_cast h1.2
    have h3 : (n : ℚ) ≤ 7 * (k : ℚ) := by
      have : n ≤ 7 * k := by omega
      exact_mod_cast this
    rw [Int.ceil_eq_iff]
    constructor
    · push_cast
      rw [lt_div_iff₀ (by norm_num : (0 : ℚ) < 7)]
      linarith
    · push_cast
      rw [div_le_iff₀ (by norm_num : (0 : ℚ) < 7)]
      linarith
  rw [hceil]
  exact Int.toNat_natCast _

/-- Claim C5: period bucketing of a valid date (4-digit year) yields
`YYYY-MM-DD` daily, `YYYY-MM` monthly and `YYYY-MM-W<n>` weekly with
`n = ceil(day/7)`; the weekly `sort_key` zero-pads the week to two digits and
the weekly `sort_value` concatenates year, month and padded week as an
integer; an absent or unparseable date yields all-null descriptors. -/
theorem claim_c5 (d : YMD) (hy : 1000 ≤ d.year ∧ d.year ≤ 9999)
    (hm : 1 ≤ d.month ∧ d.month ≤ 12) (hd : 1 ≤ d.day ∧ d.day ≤ 31) :
    buildPeriodDescriptor (some d) .daily =
      ⟨some (pad4 d.year ++ "-" ++ pad2 d.month ++ "-" ++ pad2 d.day),
       some (pad4 d.year ++ "-" ++ pad2 d.month ++ "-" ++ pad2 d.day),
       some (epochMillis d)⟩ ∧
    buildPeriodDescriptor (some d) .monthly =
      ⟨some (toString d.year ++ "-" ++ pad2 d.month),
       some (toString d.year ++ "-" ++ pad2 d.month),
       some ((d.year : ℤ) * 100 + (d.month : ℤ))⟩ ∧
    buildPeriodDescriptor (some d) .weekly =
      ⟨some (toString d.year ++ "-" ++ pad2 d.month ++ "-W" ++ toString ((d.day + 6) / 7)),
       some (toString d.year ++ "-" ++ pad2 d.month ++ "-" ++ pad2 ((d.day + 6) / 7)),
       some ((d.year : ℤ) * 10000 + (d.month : ℤ) * 100 + (((d.day + 6) / 7 : ℕ) : ℤ))⟩ ∧
    (∀ rt, buildPeriodDescriptor none rt = ⟨none, none, none⟩) := by
  obtain ⟨hy1, hy2⟩ := hy
  obtain ⟨hm1, hm2⟩ := hm
  obtain ⟨hd1, hd2⟩ := hd
  have hw := weekNum_eq d.day
  refine ⟨?_, ?_, ?_, ?_⟩
  · simp only [buildPeriodDescriptor, periodLabel]
    rw [if_pos (by omega)]
  · simp only [buildPeriodDescriptor, periodLabel]
    rw [if_pos (by omega)]
  · simp only [buildPeriodDescriptor, periodLabel, hw]
    rw [if_pos (by omega)]
  · intro rt
    cases rt <;> simp [buildPeriodDescriptor, periodLabel]

/-- Witness for C5 at the spec's example `2024-01-31`: daily `2024-01-31`,
monthly `2024-01`, weekly `2024-01-W5` with sort key `2024-01-05` and sort
value `20240105`. -/
theorem claim_c5_witness :
    buildPeriodDescriptor (some ⟨2024, 1, 31⟩) .daily =
      ⟨some "2024-01-31", some "2024-01-31", some 1706659200000⟩ ∧
    buildPeriodDescriptor (some ⟨2024, 1, 31⟩) .monthly =
      ⟨some "2024-01", some "2024-01", some 202401⟩ ∧
    buildPeriodDescriptor (some ⟨2024, 1, 31⟩) .weekly =
      ⟨some "2024-01-W5", some "2024-01-05", some 20240105⟩ := by
  have hc := claim_c5 ⟨2024, 1, 31⟩ (by decide) (by decide) (by decide)
  refine ⟨?_, ?_, ?_⟩
  · rw [hc.1]; decide
  · rw [hc.2.1]; decide
  · rw [hc.2.2.1]; decide

/-! ## Indexing the daily continuity pass -/

theorem continuityAux_length (lv : Option ℤ) (t0 : JsTime) (p : ContRecord)
    (l : List ContRecord) : (continuityAux lv t0 p l).length = l.length := by
  induction l generalizing lv t0 p with
  | nil => rfl
  | cons c rest ih => simp [continuityAux, ih]

theorem continuityPass_length (l : List ContRecord) :
    (continuityPass l).length = l.length := by
  cases l with
  | nil => rfl
  | cons r rs => simp [continuityPass, continuityAux_length]

theorem continuityAux_getD (rs : List ContRecord) (prev : ContRecord) (i : ℕ)
    (h : i < rs.length) :
    (continuityAux prev.version prev.ts prev rs).getD i contNone =
      if (if i = 0 then prev else rs.getD (i - 1) defaultCont).version ≠ none ∧
          (if i = 0 then prev else rs.getD (i - 1) defaultCont).ts ≠ JsTime.null then
        applyChanges (if i = 0 then prev else rs.getD (i - 1) defaultCont)
          (rs.getD i defaultCont)
      else contNone := by
  induction rs generalizing prev i with
  | nil => simp at h
  | cons c rest ih =>
    match i with
    | 0 => simp [continuityAux]
    | j + 1 =>
      have hj : j < rest.length := by
        simp only [List.length_cons] at h
        omega
      have hrec := ih c j hj
      simp only [continuityAux, List.getD_cons_succ]
      rw [hrec]
      cases j with
      | zero => simp
      | succ k => simp [List.getD_cons_succ]

theorem continuityPass_getD (records : List ContRecord) (i : ℕ)
    (hi : i + 1 < records.length) :
    (continuityPass records).getD (i + 1) contNone =
      if (records.getD i defaultCont).version ≠ none ∧
          (records.getD i defaultCont).ts ≠ JsTime.null then
        applyChanges (records.getD i defaultCont) (records.getD (i + 1) defaultCont)
      else contNone := by
  cases records with
  | nil => simp at hi
  | cons r rs =>
    have h : i < rs.length := by
      simp only [List.length_cons] at hi
      omega
    have hrec := continuityAux_getD rs r i h
    simp only [continuityPass, List.getD_cons_succ]
    rw [hrec]
    cases i with
    | zero => simp
    | succ k => simp [List.getD_cons_succ]

/-- Counterexample to claim C6: in a two-entry group whose first entry has a
null version number (blend code without a version), the second entry receives
`null` change percentages even though the predecessor total is positive and
the claimed formula yields `50`. -/
theorem claim_c6_cex :
    (continuityPass [c6A, c6B]).map (fun r => r.bale) = [none, none] ∧
    (continuityPass [c6A, c6B]).map (fun r => r.lot) = [none, none] ∧
    0 < c6A.total_bales ∧
    toFixed2 (absDiffSum c6A.lotBales c6B.lotBales / c6A.total_bales * 100) = 50 := by
  refine ⟨?_, ?_, by norm_num [c6A], ?_⟩
  · simp [continuityPass, continuityAux, c6A, contNone]
  · simp [continuityPass, continuityAux, c6A, contNone]
  · simp [c6A, c6B, absDiffSum, lotUnion, alookup, toFixed2, jround]
    norm_num

/-- Claim C6 amended: for every non-first entry whose immediate predecessor
has a non-null version number and a non-null issue timestamp, the change
percentages follow the claimed formulas (`null` when starved of a positive
denominator); a predecessor with a null version or absent issue date leaves
both percentages `null` instead. -/
theorem claim_c6 (records : List ContRecord) (i : ℕ) (hi : i + 1 < records.length)
    (hv : (records.getD i defaultCont).version ≠ none)
    (ht : (records.getD i defaultCont).ts ≠ JsTime.null) :
    ((continuityPass records).getD (i + 1) contNone).bale =
      (if 0 < (records.getD i defaultCont).total_bales then
        some (toFixed2 (absDiffSum (records.getD i defaultCont).lotBales
          (records.getD (i + 1) defaultCont).lotBales /
            (records.getD i defaultCont).total_bales * 100))
      else none) ∧
    ((continuityPass records).getD (i + 1) contNone).lot =
      (if 0 < (records.getD i defaultCont).no_of_lots then
        some (toFixed2
          (((newLotCount (records.getD i defaultCont).lotBales
                (records.getD (i + 1) defaultCont).lotBales +
              remLotCount (records.getD i defaultCont).lotBales
                (records.getD (i + 1) defaultCont).lotBales : ℕ) : ℚ) /
            ((records.getD i defaultCont).no_of_lots : ℚ) * 100))
      else none) := by
  rw [continuityPass_getD records i hi, if_pos ⟨hv, ht⟩]
  exact ⟨rfl, rfl⟩

/-- Witness for the amended C6: a concrete two-entry group with a valid
predecessor, where both formulas evaluate to `100`. -/
theorem claim_c6_witness :
    ((continuityPass [c6WA, c6WB]).getD 1 contNone).bale = some 100 ∧
    ((continuityPass [c6WA, c6WB]).getD 1 contNone).lot = some 100 := by
  have hc := claim_c6 [c6WA, c6WB] 0 (by simp) (by simp [c6WA]) (by simp [c6WA])
  constructor
  · rw [hc.1]
    simp [c6WA, c6WB, absDiffSum, lotUnion, alookup, newLotCount, remLotCount,
      toFixed2, jround]
    norm_num
  · rw [hc.2]
    simp [c6WA, c6WB, absDiffSum, lotUnion, alookup, newLotCount, remLotCount,
      toFixed2, jround]
    norm_num

/-- Counterexample to claim C7: two chronologically ordered entries in one
signature group where the first has a null version number — the second
entry's `previous_mixing_ref` stays `null` instead of the predecessor's
rendered range `"3"`. -/
theorem claim_c7_cex :
    sortContRecords [c7P, c7Q] = [c7P, c7Q] ∧
    (continuityPass (sortContRecords [c7P, c7Q])).map (fun r => r.ref) = [none, none] ∧
    c7P.mixing_no = "3" := by
  have hs : sortContRecords [c7P, c7Q] = [c7P, c7Q] := by
    simp [sortContRecords, List.mergeSort, c7P, c7Q, contCmp, JsTime.neq, timeSub]
  refine ⟨hs, ?_, rfl⟩
  rw [hs]
  simp [continuityPass, continuityAux, c7P, contNone]

/-- Claim C7 amended: within a signature group ordered by the continuity
comparator (issue timestamp ascending with invalid-timestamp entries last,
then version number with null as +infinity, then maximal mixing number with
null as +infinity), every entry whose immediate predecessor has a non-null
version number and a non-null issue timestamp receives that predecessor's
rendered mixing range as `previous_mixing_ref`; with an invalid predecessor
the reference stays `null`. -/
theorem claim_c7 (entries : List ContRecord) (i : ℕ)
    (hi : i + 1 < (sortContRecords entries).length)
    (hv : ((sortContRecords entries).getD i defaultCont).version ≠ none)
    (ht : ((sortContRecords entries).getD i defaultCont).ts ≠ JsTime.null) :
    ((continuityPass (sortContRecords entries)).getD (i + 1) contNone).ref =
      some ((sortContRecords entries).getD i defaultCont).mixing_no := by
  rw [continuityPass_getD _ i hi, if_pos ⟨hv, ht⟩]
  rfl

/-- Witness for the amended C7 at three chronologically increasing entries:
entry 3's reference is entry 2's mixing range `"2"`, never entry 1's `"1"`. -/
theorem claim_c7_witness :
    ((continuityPass (sortContRecords [c7E1, c7E2, c7E3])).getD 2 contNone).ref =
      some "2" ∧ ("2" : String) ≠ "1" := by
  have hs : sortContRecords [c7E1, c7E2, c7E3] = [c7E1, c7E2, c7E3] := by
    simp [sortContRecords, List.mergeSort, c7E1, c7E2, c7E3, contCmp, JsTime.neq, timeSub]
  have hc := claim_c7 [c7E1, c7E2, c7E3] 1
    (by rw [hs]; simp)
    (by rw [hs]; simp [c7E2])
    (by rw [hs]; simp [c7E2])
  refine ⟨?_, by simp⟩
  rw [hc, hs]
  simp [c7E2]

/-! ## Numeric strings contain no delimiter (claim C10) -/

theorem parseUnsignedDec_chars (cs : List Char) (q : ℚ)
    (h : parseUnsignedDec cs = some q) : ∀ c ∈ cs, isDigitChar c = true ∨ c = '.' := by
  intro c hc
  have hc2 : c ∈ cs.takeWhile isDigitChar ++ cs.dropWhile isDigitChar := by
    rw [List.takeWhile_append_dropWhile]
    exact hc
  rcases List.mem_append.mp hc2 with h1 | h2
  · exact Or.inl (List.mem_takeWhile_imp h1)
  · unfold parseUnsignedDec at h
    revert h2 h
    cases cs.dropWhile isDigitChar with
    | nil => intro _ hmem; simp at hmem
    | cons c0 frac =>
      intro h h2
      simp only at h
      split_ifs at h with hcond
      rcases List.mem_cons.mp h2 with rfl | hmem
      · exact Or.inr hcond.1
      · exact Or.inl (List.all_eq_true.mp hcond.2.1 c hmem)

theorem jsTrimL_mem (cs : List Char) (c : Char) (hc : c ∈ cs) :
    isSpaceChar c = true ∨ c ∈ jsTrimL cs := by
  have hc2 : c ∈ cs.takeWhile isSpaceChar ++ cs.dropWhile isSpaceChar := by
    rw [List.takeWhile_append_dropWhile]
    exact hc
  rcases List.mem_append.mp hc2 with h1 | h2
  · exact Or.inl (List.mem_takeWhile_imp h1)
  · set rest := cs.dropWhile isSpaceChar with hrest
    have hc3 : c ∈ rest.reverse.takeWhile isSpaceChar ++ rest.reverse.dropWhile isSpaceChar := by
      rw [List.takeWhile_append_dropWhile]
      exact List.mem_reverse.mpr h2
    rcases List.mem_append.mp hc3 with h4 | h5
    · exact Or.inl (List.mem_takeWhile_imp h4)
    · right
      unfold jsTrimL
      rw [← hrest]
      exact List.mem_reverse.mpr h5

theorem jsToNumber_chars (s : String) (q : ℚ) (h : jsToNumber s = some q) :
    ∀ c ∈ s.data, isSpaceChar c = true ∨ isDigitChar c = true ∨ c = '.' ∨ c = '-' ∨ c = '+' := by
  intro c hc
  rcases jsTrimL_mem s.data c hc with hsp | hmem
  · exact Or.inl hsp
  · unfold jsToNumber at h
    revert h hmem
    cases jsTrimL s.data with
    | nil => intro _ hmem; simp at hmem
    | cons c0 rest =>
      intro h hmem
      by_cases hminus : c0 = '-'
      · subst hminus
        simp only at h
        obtain ⟨q2, hq2, _⟩ := Option.map_eq_some'.mp h
        rcases List.mem_cons.mp hmem with rfl | hmem2
        · exact Or.inr (Or.inr (Or.inr (Or.inl rfl)))
        · rcases parseUnsignedDec_chars rest q2 hq2 c hmem2 with hd | hd
          · exact Or.inr (Or.inl hd)
          · exact Or.inr (Or.inr (Or.inl hd))
      · by_cases hplus : c0 = '+'
        · subst hplus
          simp only at h
          rcases List.mem_cons.mp hmem with rfl | hmem2
          · exact Or.inr (Or.inr (Or.inr (Or.inr rfl)))
          · rcases parseUnsignedDec_chars rest q h c hmem2 with hd | hd
            · exact Or.inr (Or.inl hd)
            · exact Or.inr (Or.inr (Or.inl hd))
        · simp only at h
          split at h
          · rename_i heq
            simp at heq
          · rename_i r1 heq
            injection heq with h1 _
            exact absurd h1 hminus
          · rename_i r1 heq
            injection heq with h1 _
            exact absurd h1 hplus
          · rcases parseUnsignedDec_chars _ q h c hmem with hd | hd
            · exact Or.inr (Or.inl hd)
            · exact Or.inr (Or.inr (Or.inl hd))

theorem jsToNumber_no_pipe (s : String) (q : ℚ) (h : jsToNumber s = some q) :
    ('|' : Char) ∉ s.data := by
  intro hmem
  rcases jsToNumber_chars s q h '|' hmem with hx | hx | hx | hx | hx <;>
    exact absurd hx (by decide)

theorem pipe_append_inj : ∀ (a c b d : List Char),
    a ++ '|' :: b = c ++ '|' :: d → ('|' : Char) ∉ a → ('|' : Char) ∉ c →
    a = c ∧ b = d := by
  intro a
  induction a with
  | nil =>
    intro c b d h ha hc
    cases c with
    | nil =>
      simp only [List.nil_append, List.cons.injEq] at h
      exact ⟨rfl, h.2⟩
    | cons y c2 =>
      simp only [List.nil_append, List.cons_append, List.cons.injEq] at h
      apply absurd _ hc
      rw [← h.1]
      exact List.mem_cons_self _ _
  | cons x a2 ih =>
    intro c b d h ha hc
    cases c with
    | nil =>
      simp only [List.cons_append, List.nil_append, List.cons.injEq] at h
      apply absurd _ ha
      rw [h.1]
      exact List.mem_cons_self _ _
    | cons y c2 =>
      simp only [List.cons_append, List.cons.injEq] at h
      obtain ⟨rfl, h2⟩ := h
      have hres := ih c2 b d h2 (fun hm => ha (List.mem_cons_of_mem _ hm))
        (fun hm => hc (List.mem_cons_of_mem _ hm))
      exact ⟨by rw [hres.1], hres.2⟩

theorem dailyKey_data (r : MixRow) :
    (dailyKey r).data = r.mixing_no.data ++ '|' :: r.cotton.data := by
  simp [dailyKey, String.data_append]

/-- Two rows of one daily group (equal concatenated keys) with numeric mixing
numbers have identical `mixing_no` strings: a numeric string cannot contain
the `"|"` delimiter, so the key splits unambiguously at the first pipe. -/
theorem dailyKey_numeric_inj (r1 r2 : MixRow) (hk : dailyKey r1 = dailyKey r2)
    (h1 : jsToNumber r1.mixing_no ≠ none) (h2 : jsToNumber r2.mixing_no ≠ none) :
    r1.mixing_no = r2.mixing_no := by
  obtain ⟨q1, hq1⟩ := Option.ne_none_iff_exists'.mp h1
  obtain ⟨q2, hq2⟩ := Option.ne_none_iff_exists'.mp h2
  have hd : (dailyKey r1).data = (dailyKey r2).data := by rw [hk]
  rw [dailyKey_data, dailyKey_data] at hd
  have hres := pipe_append_inj _ _ _ _ hd (jsToNumber_no_pipe _ _ hq1)
    (jsToNumber_no_pipe _ _ hq2)
  cases hm1 : r1.mixing_no with
  | mk l1 =>
    cases hm2 : r2.mixing_no with
    | mk l2 =>
      rw [hm1, hm2] at hres
      have : l1 = l2 := by simpa using hres.1
      rw [this]

theorem foldl_min_max_const (l : List ℚ) (a : ℚ) (h : ∀ x ∈ l, x = a) :
    l.foldl min a = a ∧ l.foldl max a = a := by
  induction l with
  | nil => exact ⟨rfl, rfl⟩
  | cons x rest ih =>
    have hx := h x (List.mem_cons_self _ _)
    have h2 : ∀ y ∈ rest, y = a := fun y hy => h y (List.mem_cons_of_mem _ hy)
    simp only [List.foldl_cons, hx, min_self, max_self]
    exact ih h2

/-- Counterexample to claim C10: the daily grouping key is the string
concatenation `` `${mixing_no}|${cotton}` ``, not the pair — two rows with
distinct (mixing number, blend code) pairs and distinct mixing numbers
collide on the same key when a field contains the delimiter. -/
theorem claim_c10_cex :
    dailyKey c10R1 = dailyKey c10R2 ∧
    c10R1.mixing_no ≠ c10R2.mixing_no ∧
    (c10R1.mixing_no, c10R1.cotton) ≠ (c10R2.mixing_no, c10R2.cotton) := by
  refine ⟨?_, by decide, by decide⟩
  decide

/-- Claim C10 amended: daily grouping is by the concatenated string key
`mixing_no|cotton` (which can merge distinct pairs only via delimiter
collision, and any colliding non-equal mixing number fails numeric
coercion); consequently any two rows of one group with numeric mixing
numbers carry the same mixing number, and the rendered `mixing_range` of a
daily group is never a `<min>-<max>` span. -/
theorem claim_c10 (rows : List MixRow) (k : String)
    (hkey : ∀ r ∈ rows, dailyKey r = k) :
    (∀ r1 ∈ rows, ∀ r2 ∈ rows, jsToNumber r1.mixing_no ≠ none →
      jsToNumber r2.mixing_no ≠ none → r1.mixing_no = r2.mixing_no) ∧
    ∀ lo hi, mixingRangeOf rows ≠ MixingRange.span lo hi := by
  have hpart1 : ∀ r1 ∈ rows, ∀ r2 ∈ rows, jsToNumber r1.mixing_no ≠ none →
      jsToNumber r2.mixing_no ≠ none → r1.mixing_no = r2.mixing_no := by
    intro r1 hr1 r2 hr2 h1 h2
    exact dailyKey_numeric_inj r1 r2 ((hkey r1 hr1).trans (hkey r2 hr2).symm) h1 h2
  refine ⟨hpart1, ?_⟩
  intro lo hi
  have hall : ∀ x ∈ mixingNumbersOf rows, ∀ y ∈ mixingNumbersOf rows, x = y := by
    intro x hx y hy
    unfold mixingNumbersOf at hx hy
    rw [List.Perm.mem_iff (List.mergeSort_perm _ _)] at hx hy
    obtain ⟨s1, hs1, hq1⟩ := List.mem_filterMap.mp hx
    obtain ⟨s2, hs2, hq2⟩ := List.mem_filterMap.mp hy
    obtain ⟨r1, hr1, rfl⟩ := List.mem_map.mp (List.mem_dedup.mp hs1)
    obtain ⟨r2, hr2, rfl⟩ := List.mem_map.mp (List.mem_dedup.mp hs2)
    have heq := hpart1 r1 hr1 r2 hr2 (by rw [hq1]; exact Option.some_ne_none x)
      (by rw [hq2]; exact Option.some_ne_none y)
    rw [heq, hq2] at hq1
    exact Option.some_injective _ hq1.symm
  unfold mixingRangeOf
  cases hnum : mixingNumbersOf rows with
  | nil => simp
  | cons q qs =>
    have hq : ∀ x ∈ qs, x = q := by
      intro x hx
      exact hall x (hnum ▸ List.mem_cons_of_mem _ hx) q (hnum ▸ List.mem_cons_self _ _)
    have hmm := foldl_min_max_const qs q hq
    simp [hmm.1, hmm.2]

/-- Witness for the amended C10 at the colliding pair: the group's
mixing range is still a single number, never a span. -/
theorem claim_c10_witness :
    (∀ r1 ∈ [c10R1, c10R2], ∀ r2 ∈ [c10R1, c10R2], jsToNumber r1.mixing_no ≠ none →
      jsToNumber r2.mixing_no ≠ none → r1.mixing_no = r2.mixing_no) ∧
    ∀ lo hi, mixingRangeOf [c10R1, c10R2] ≠ MixingRange.span lo hi := by
  apply claim_c10 [c10R1, c10R2] "1|X|Y"
  intro r hr
  rcases List.mem_cons.mp hr with rfl | hr2
  · decide
  · rcases List.mem_singleton.mp hr2 with rfl
    decide

/-! ## Rounding bounds and contribution-map invariants (claim C8) -/

theorem jround_abs_le (x : ℚ) : |(jround x : ℚ) - x| ≤ 1 / 2 := by
  unfold jround
  have h1 := Int.floor_le (x + 1 / 2)
  have h2 := Int.lt_floor_add_one (x + 1 / 2)
  rw [abs_le]
  constructor <;> linarith

theorem sum_jround_sub_bound (l : List ℚ) :
    |(l.map (fun x => (jround x : ℚ))).sum - l.sum| ≤ (l.length : ℚ) / 2 := by
  induction l with
  | nil => simp
  | cons x rest ih =>
    simp only [List.map_cons, List.sum_cons, List.length_cons]
    have h2 : ((jround x : ℚ) + (rest.map (fun x => (jround x : ℚ))).sum) - (x + rest.sum)
        = ((jround x : ℚ) - x) + ((rest.map (fun x => (jround x : ℚ))).sum - rest.sum) := by
      ring
    rw [h2]
    have h3 := abs_add ((jround x : ℚ) - x)
      ((rest.map (fun x => (jround x : ℚ))).sum - rest.sum)
    have h4 := jround_abs_le x
    push_cast
    linarith

theorem aupdate_keys_nodup (m : List (String × ℚ)) (k : String) (b : ℚ)
    (h : (m.map Prod.fst).Nodup) : ((aupdate m k b).map Prod.fst).Nodup := by
  unfold aupdate
  split_ifs with hany
  · have : (m.map (fun p => if p.1 == k then (p.1, p.2 + b) else p)).map Prod.fst =
        m.map Prod.fst := by
      rw [List.map_map]
      apply List.map_congr_left
      intro p _
      show (if (p.1 == k) = true then (p.1, p.2 + b) else p).1 = p.1
      split <;> rfl
    rw [this]
    exact h
  · rw [List.map_append]
    simp only [List.map_cons, List.map_nil]
    rw [List.nodup_append]
    refine ⟨h, List.nodup_singleton _, ?_⟩
    intro a ha
    simp only [List.mem_singleton]
    intro hak
    subst hak
    obtain ⟨p, hp, hpa⟩ := List.mem_map.mp ha
    exact hany (List.any_eq_true.mpr ⟨p, hp, by simp [hpa]⟩)

theorem aupdate_values_nonneg (m : List (String × ℚ)) (k : String) (b : ℚ)
    (hm : ∀ p ∈ m, 0 ≤ p.2) (hb : 0 ≤ b) : ∀ p ∈ aupdate m k b, 0 ≤ p.2 := by
  intro p hp
  unfold aupdate at hp
  split_ifs at hp with hany
  · obtain ⟨p0, hp0, hpp⟩ := List.mem_map.mp hp
    by_cases h0 : p0.1 == k
    · rw [if_pos h0] at hpp
      rw [← hpp]
      have := hm p0 hp0
      dsimp only
      linarith
    · rw [if_neg h0] at hpp
      exact hpp ▸ hm p0 hp0
  · rcases List.mem_append.mp hp with hp1 | hp2
    · exact hm p hp1
    · rcases List.mem_singleton.mp hp2 with rfl
      exact hb

theorem update_map_id (m : List (String × ℚ)) (k : String) (b : ℚ)
    (hk : ∀ p ∈ m, (p.1 == k) = false) :
    m.map (fun p => if p.1 == k then (p.1, p.2 + b) else p) = m := by
  have hcongr : m.map (fun p => if p.1 == k then (p.1, p.2 + b) else p) = m.map id :=
    List.map_congr_left (fun p hp => by rw [if_neg (by simp [hk p hp])]; rfl)
  rw [hcongr, List.map_id]

theorem aupdate_values_sum (m : List (String × ℚ)) (k : String) (b : ℚ)
    (h : (m.map Prod.fst).Nodup) :
    ((aupdate m k b).map Prod.snd).sum = (m.map Prod.snd).sum + b := by
  induction m with
  | nil => simp [aupdate]
  | cons p0 rest ih =>
    have hnd : (rest.map Prod.fst).Nodup := (List.nodup_cons.mp h).2
    have hnotin : p0.1 ∉ rest.map Prod.fst := (List.nodup_cons.mp h).1
    by_cases h0 : p0.1 == k
    · have hrest : ∀ p ∈ rest, (p.1 == k) = false := by
        intro p hp
        have hne : p.1 ≠ p0.1 := by
          intro hcon
          exact hnotin (hcon ▸ List.mem_map_of_mem Prod.fst hp)
        have hk0 : p0.1 = k := by simpa using h0
        simp [hk0 ▸ hne]
      have hany : (p0 :: rest).any (fun p => p.1 == k) = true := by
        simp [List.any_cons, h0]
      unfold aupdate
      rw [if_pos hany]
      simp only [List.map_cons, if_pos h0, update_map_id rest k b hrest, List.sum_cons]
      ring
    · by_cases hany : rest.any (fun p => p.1 == k)
      · have hany2 : (p0 :: rest).any (fun p => p.1 == k) = true := by
          simp [List.any_cons, hany]
        have hrec := ih hnd
        unfold aupdate at hrec ⊢
        rw [if_pos hany2]
        rw [if_pos hany] at hrec
        simp only [List.map_cons, if_neg (by simp [h0] : ¬(p0.1 == k) = true),
          List.sum_cons, hrec]
        ring
      · have hany2 : (p0 :: rest).any (fun p => p.1 == k) = false := by
          rw [List.any_cons, Bool.or_eq_false_iff]
          exact ⟨Bool.eq_false_iff.mpr h0, Bool.eq_false_iff.mpr hany⟩
        unfold aupdate
        rw [if_neg (by simp [hany2])]
        simp
        ring

theorem foldl_contribs (rows : List BlendRow)
    (hnn : ∀ r ∈ rows, 0 ≤ r.issue_bale * r.weight) :
    ∀ m : List (String × ℚ), (m.map Prod.fst).Nodup → (∀ p ∈ m, 0 ≤ p.2) →
      ((rows.foldl (fun m r => aupdate m r.cotton_name (r.issue_bale * r.weight)) m).map
        Prod.fst).Nodup ∧
      (∀ p ∈ rows.foldl (fun m r => aupdate m r.cotton_name (r.issue_bale * r.weight)) m,
        0 ≤ p.2) ∧
      ((rows.foldl (fun m r => aupdate m r.cotton_name (r.issue_bale * r.weight)) m).map
        Prod.snd).sum =
        (m.map Prod.snd).sum + (rows.map (fun r => r.issue_bale * r.weight)).sum := by
  induction rows with
  | nil => intro m h1 h2; exact ⟨h1, h2, by simp⟩
  | cons r rest ih =>
    intro m h1 h2
    have hr := hnn r (List.mem_cons_self _ _)
    have hrest : ∀ q ∈ rest, 0 ≤ q.issue_bale * q.weight :=
      fun q hq => hnn q (List.mem_cons_of_mem _ hq)
    have hstep1 := aupdate_keys_nodup m r.cotton_name (r.issue_bale * r.weight) h1
    have hstep2 := aupdate_values_nonneg m r.cotton_name (r.issue_bale * r.weight) h2 hr
    have hstep3 := aupdate_values_sum m r.cotton_name (r.issue_bale * r.weight) h1
    have hrec := ih hrest (aupdate m r.cotton_name (r.issue_bale * r.weight))
      hstep1 hstep2
    refine ⟨hrec.1, hrec.2.1, ?_⟩
    simp only [List.foldl_cons, List.map_cons, List.sum_cons]
    rw [hrec.2.2, hstep3]
    ring

theorem buildContribs_facts (rows : List BlendRow)
    (hnn : ∀ r ∈ rows, 0 ≤ r.issue_bale * r.weight) :
    ((buildContribs rows).map Prod.fst).Nodup ∧
    (∀ p ∈ buildContribs rows, 0 ≤ p.2) ∧
    ((buildContribs rows).map Prod.snd).sum = totalWeightedSum rows := by
  have h := foldl_contribs rows hnn [] (by simp) (by simp)
  exact ⟨h.1, h.2.1, by simpa [buildContribs, totalWeightedSum] using h.2.2⟩

theorem alookup_of_mem (m : List (String × ℚ)) (p : String × ℚ) (hp : p ∈ m)
    (hnd : (m.map Prod.fst).Nodup) : alookup m p.1 = p.2 := by
  induction m with
  | nil => simp at hp
  | cons q rest ih =>
    have hndr : (rest.map Prod.fst).Nodup := (List.nodup_cons.mp hnd).2
    have hqnotin : q.1 ∉ rest.map Prod.fst := (List.nodup_cons.mp hnd).1
    by_cases hq : q.1 == p.1
    · have hq2 : q.1 = p.1 := by simpa using hq
      rcases List.mem_cons.mp hp with rfl | hp2
      · simp [alookup, List.find?_cons, hq]
      · exact absurd (hq2 ▸ List.mem_map_of_mem Prod.fst hp2) hqnotin
    · rcases List.mem_cons.mp hp with rfl | hp2
      · simp at hq
      · have := ih hp2 hndr
        simpa [alookup, List.find?_cons, hq] using this

theorem sum_filter_pos (m : List (String × ℚ)) (h : ∀ p ∈ m, 0 ≤ p.2) :
    ((m.filter (fun p => decide (0 < p.2))).map Prod.snd).sum = (m.map Prod.snd).sum := by
  induction m with
  | nil => simp
  | cons p rest ih =>
    have hrest : ∀ q ∈ rest, 0 ≤ q.2 := fun q hq => h q (List.mem_cons_of_mem _ hq)
    by_cases hp : 0 < p.2
    · rw [List.filter_cons_of_pos (by simpa using hp), List.map_cons, List.sum_cons,
        ih hrest, List.map_cons, List.sum_cons]
    · have hp0 : p.2 = 0 := le_antisymm (not_lt.mp hp) (h p (List.mem_cons_self _ _))
      rw [List.filter_cons_of_neg (by simpa using hp), ih hrest, List.map_cons,
        List.sum_cons, hp0, zero_add]

theorem int_cast_list_sum (l : List ℤ) :
    ((l.sum : ℤ) : ℚ) = (l.map (fun z => (Int.cast z : ℚ))).sum := by
  induction l with
  | nil => simp
  | cons x rest ih => rw [List.sum_cons, List.map_cons, List.sum_cons, Int.cast_add, ih]

/-- Counterexample to claim C8: five positive contributions
`[104, 104, 104, 104, 584]` (weights `1`) give integer percentages
`[10, 10, 10, 10, 58]`, summing to `98` — off by `2`, outside the claimed
`±1`. -/
theorem claim_c8_cex :
    (blendPercentages c8Rows []).sum = 98 ∧
    ¬|((blendPercentages c8Rows []).sum : ℚ) - 100| ≤ 1 := by
  have h : blendPercentages c8Rows [] = [10, 10, 10, 10, 58] := by
    have hc : buildContribs c8Rows =
        [("A", 104), ("B", 104), ("C", 104), ("D", 104), ("E", 584)] := by
      simp [buildContribs, c8Rows, aupdate]
    have ht : totalWeightedSum c8Rows = 1000 := by
      simp [totalWeightedSum, c8Rows]
      norm_num
    have hn : blendNames (buildContribs c8Rows) [] = ["A", "B", "C", "D", "E"] := by
      rw [hc]
      simp +decide [blendNames, nameLe, upChar, List.mergeSort, List.merge]
    rw [blendPercentages]
    rw [hn, hc, ht]
    simp [alookup, jround]
    norm_num
  rw [h]
  norm_num

/-- Claim C8 amended: for a daily group whose blend contributions are all
nonnegative with at least one positive, the integer blend percentages sum to
within `n/2` of `100`, where `n` is the number of positive contributions
(the `±1` of the claim holds only for `n ≤ 3`; rounding can drift by
`⌊n/2⌋`). -/
theorem claim_c8 (rows : List BlendRow) (catalog : List String)
    (hnn : ∀ r ∈ rows, 0 ≤ r.issue_bale * r.weight)
    (hpos : ∃ r ∈ rows, 0 < r.issue_bale * r.weight) :
    |((blendPercentages rows catalog).sum : ℚ) - 100| ≤
      ((blendPercentages rows catalog).length : ℚ) / 2 := by
  obtain ⟨hnd, hvals, hsum⟩ := buildContribs_facts rows hnn
  have htpos : 0 < totalWeightedSum rows := by
    obtain ⟨r, hr, hrpos⟩ := hpos
    have hmem : r.issue_bale * r.weight ∈ rows.map (fun r => r.issue_bale * r.weight) :=
      List.mem_map_of_mem _ hr
    have hle : r.issue_bale * r.weight ≤ (rows.map (fun r => r.issue_bale * r.weight)).sum := by
      apply List.single_le_sum _ _ hmem
      intro x hx
      obtain ⟨q, hq, rfl⟩ := List.mem_map.mp hx
      exact hnn q hq
    exact lt_of_lt_of_le hrpos hle
  have hsum_pos : (((buildContribs rows).filter (fun p => decide (0 < p.2))).map
      Prod.snd).sum = totalWeightedSum rows := by
    rw [sum_filter_pos (buildContribs rows) hvals, hsum]
  have hpos_ne : (buildContribs rows).filter (fun p => decide (0 < p.2)) ≠ [] := by
    intro hcon
    rw [hcon] at hsum_pos
    simp at hsum_pos
    rw [← hsum_pos] at htpos
    exact lt_irrefl 0 htpos
  have hns_ne : ¬ ((((buildContribs rows).filter (fun p => decide (0 < p.2))).map
      Prod.fst).mergeSort nameLe) = [] := by
    intro hcon
    have hperm := List.mergeSort_perm
      (((buildContribs rows).filter (fun p => decide (0 < p.2))).map Prod.fst) nameLe
    rw [hcon] at hperm
    have := hperm.length_eq
    simp at this
    exact hpos_ne (List.eq_nil_of_length_eq_zero this.symm)
  have hblend : blendNames (buildContribs rows) catalog =
      (((buildContribs rows).filter (fun p => decide (0 < p.2))).map
        Prod.fst).mergeSort nameLe := by
    rw [blendNames, if_neg hns_ne]
  have hperc : blendPercentages rows catalog =
      ((((buildContribs rows).filter (fun p => decide (0 < p.2))).map
        Prod.fst).mergeSort nameLe).map (fun name =>
          if 0 < totalWeightedSum rows ∧ alookup (buildContribs rows) name ≠ 0 then
            jround (alookup (buildContribs rows) name / totalWeightedSum rows * 100)
          else 0) := by
    rw [blendPercentages, hblend]
  have hpoint : ∀ p ∈ (buildContribs rows).filter (fun p => decide (0 < p.2)),
      (if 0 < totalWeightedSum rows ∧ alookup (buildContribs rows) p.1 ≠ 0 then
        jround (alookup (buildContribs rows) p.1 / totalWeightedSum rows * 100)
      else 0) = jround (p.2 / totalWeightedSum rows * 100) := by
    intro p hp
    have hpc := List.mem_filter.mp hp
    have hlook : alookup (buildContribs rows) p.1 = p.2 :=
      alookup_of_mem (buildContribs rows) p hpc.1 hnd
    have hppos : 0 < p.2 := of_decide_eq_true hpc.2
    rw [hlook, if_pos ⟨htpos, ne_of_gt hppos⟩]
  have hsum_eq : ((blendPercentages rows catalog).map (fun z => (Int.cast z : ℚ))).sum =
      ((((buildContribs rows).filter (fun p => decide (0 < p.2))).map
        (fun p => p.2 / totalWeightedSum rows * 100)).map (fun x => (jround x : ℚ))).sum := by
    rw [hperc]
    have hp1 : (((((buildContribs rows).filter (fun p => decide (0 < p.2))).map
        Prod.fst).mergeSort nameLe).map (fun name =>
          if 0 < totalWeightedSum rows ∧ alookup (buildContribs rows) name ≠ 0 then
            jround (alookup (buildContribs rows) name / totalWeightedSum rows * 100)
          else 0)).Perm
        ((((buildContribs rows).filter (fun p => decide (0 < p.2))).map
          Prod.fst).map (fun name =>
          if 0 < totalWeightedSum rows ∧ alookup (buildContribs rows) name ≠ 0 then
            jround (alookup (buildContribs rows) name / totalWeightedSum rows * 100)
          else 0)) :=
      (List.mergeSort_perm _ nameLe).map _
    have hp2 := hp1.map (fun z => (Int.cast z : ℚ))
    rw [hp2.sum_eq, List.map_map, List.map_map, List.map_map]
    apply congrArg List.sum
    apply List.map_congr_left
    intro p hp
    simp only [Function.comp_apply]
    rw [hpoint p hp]
  have hlength : (blendPercentages rows catalog).length =
      ((buildContribs rows).filter (fun p => decide (0 < p.2))).length := by
    rw [hperc, List.length_map, (List.mergeSort_perm _ _).length_eq, List.length_map]
  have hlsum : (((buildContribs rows).filter (fun p => decide (0 < p.2))).map
      (fun p => p.2 / totalWeightedSum rows * 100)).sum = 100 := by
    have hrw : ((buildContribs rows).filter (fun p => decide (0 < p.2))).map
        (fun p => p.2 / totalWeightedSum rows * 100) =
        ((buildContribs rows).filter (fun p => decide (0 < p.2))).map
          (fun p => p.2 * (100 / totalWeightedSum rows)) := by
      apply List.map_congr_left
      intro p _
      ring
    have hmul : (((buildContribs rows).filter (fun p => decide (0 < p.2))).map
        (fun p => p.2 * (100 / totalWeightedSum rows))).sum =
        ((((buildContribs rows).filter (fun p => decide (0 < p.2))).map
          Prod.snd).sum) * (100 / totalWeightedSum rows) := by
      rw [← List.sum_map_mul_right]
    rw [hrw, hmul, hsum_pos, mul_comm, div_mul_cancel₀ _ (ne_of_gt htpos)]
  have hcast : ((blendPercentages rows catalog).sum : ℚ) =
      ((((buildContribs rows).filter (fun p => decide (0 < p.2))).map
        (fun p => p.2 / totalWeightedSum rows * 100)).map (fun x => (jround x : ℚ))).sum := by
    rw [int_cast_list_sum, hsum_eq]
  have hbound := sum_jround_sub_bound
    (((buildContribs rows).filter (fun p => decide (0 < p.2))).map
      (fun p => p.2 / totalWeightedSum rows * 100))
  rw [hlsum] at hbound
  have hlen2 : (((buildContribs rows).filter (fun p => decide (0 < p.2))).map
      (fun p => p.2 / totalWeightedSum rows * 100)).length =
      (blendPercentages rows catalog).length := by
    rw [hlength, List.length_map]
  rw [hlen2] at hbound
  rw [hcast]
  exact hbound

/-- Witness for the amended C8 at the five-name example: the sum lands within
`5/2` of `100`. -/
theorem claim_c8_witness :
    (∀ r ∈ c8Rows, 0 ≤ r.issue_bale * r.weight) ∧
    (∃ r ∈ c8Rows, 0 < r.issue_bale * r.weight) ∧
    |((blendPercentages c8Rows []).sum : ℚ) - 100| ≤
      ((blendPercentages c8Rows []).length : ℚ) / 2 := by
  have hnn : ∀ r ∈ c8Rows, 0 ≤ r.issue_bale * r.weight := by
    intro r hr
    simp only [c8Rows, List.mem_cons, List.mem_singleton] at hr
    rcases hr with rfl | rfl | rfl | rfl | (rfl | h)
    · norm_num
    · norm_num
    · norm_num
    · norm_num
    · norm_num
    · simp at h
  have hpos : ∃ r ∈ c8Rows, 0 < r.issue_bale * r.weight :=
    ⟨⟨"A", 104, 1⟩, by simp [c8Rows], by norm_num⟩
  exact ⟨hnn, hpos, claim_c8 c8Rows [] hnn hpos⟩

/-! ## Indexing the weekly continuity pass (claim C3) -/

theorem weeklyApply_gate_fields (p c : WEntry) :
    (weeklyApply p c).version = c.version ∧ (weeklyApply p c).ts = c.ts ∧
    (weeklyApply p c).total_bales = c.total_bales ∧
    (weeklyApply p c).no_of_lots = c.no_of_lots ∧
    (weeklyApply p c).lotBales = c.lotBales ∧
    (weeklyApply p c).mixing_no = c.mixing_no := by
  unfold weeklyApply
  split_ifs <;> exact ⟨rfl, rfl, rfl, rfl, rfl, rfl⟩

theorem weeklyApply_prev_congr (p q c : WEntry)
    (h1 : p.total_bales = q.total_bales) (h2 : p.no_of_lots = q.no_of_lots)
    (h3 : p.lotBales = q.lotBales) (h4 : p.mixing_no = q.mixing_no) :
    weeklyApply p c = weeklyApply q c := by
  unfold weeklyApply
  rw [h1, h2, h3, h4]

theorem weeklyContinuityAux_length (lv : Option ℤ) (t0 : JsTime) (p : WEntry)
    (l : List WEntry) : (weeklyContinuityAux lv t0 p l).length = l.length := by
  induction l generalizing lv t0 p with
  | nil => rfl
  | cons c rest ih => simp [weeklyContinuityAux, ih]

theorem weeklyContinuityPass_length (l : List WEntry) :
    (weeklyContinuityPass l).length = l.length := by
  cases l with
  | nil => rfl
  | cons r rs => simp [weeklyContinuityPass, weeklyContinuityAux_length]

theorem weeklyContinuityAux_getD (rs : List WEntry) (prev : WEntry) (i : ℕ)
    (h : i < rs.length) :
    (weeklyContinuityAux prev.version prev.ts prev rs).getD i defaultWEntry =
      (if (if i = 0 then prev else rs.getD (i - 1) defaultWEntry).version ≠ none ∧
          (if i = 0 then prev else rs.getD (i - 1) defaultWEntry).ts ≠ JsTime.null then
        weeklyApply (if i = 0 then prev else rs.getD (i - 1) defaultWEntry)
          (rs.getD i defaultWEntry)
      else rs.getD i defaultWEntry) := by
  induction rs generalizing prev i with
  | nil => simp at h
  | cons c rest ih =>
    match i with
    | 0 =>
      have e0 : (if (0 : ℕ) = 0 then prev else (c :: rest).getD (0 - 1) defaultWEntry) = prev :=
        if_pos rfl
      rw [e0]
      rfl
    | j + 1 =>
      have hj : j < rest.length := by
        simp only [List.length_cons] at h
        omega
      simp only [weeklyContinuityAux]
      set c2 := if prev.version ≠ none ∧ prev.ts ≠ JsTime.null then weeklyApply prev c else c
        with hc2
      have hfields : c2.version = c.version ∧ c2.ts = c.ts ∧ c2.total_bales = c.total_bales ∧
          c2.no_of_lots = c.no_of_lots ∧ c2.lotBales = c.lotBales ∧
          c2.mixing_no = c.mixing_no := by
        rw [hc2]
        split_ifs
        · exact weeklyApply_gate_fields prev c
        · exact ⟨rfl, rfl, rfl, rfl, rfl, rfl⟩
      have hrec := ih c2 j hj
      rw [List.getD_cons_succ, hrec]
      cases j with
      | zero =>
        have e1 : (if (0 : ℕ) = 0 then c2 else rest.getD (0 - 1) defaultWEntry) = c2 :=
          if_pos rfl
        have e2 : (if (0 : ℕ) + 1 = 0 then prev else (c :: rest).getD (0 + 1 - 1) defaultWEntry) =
            c := by
          rw [if_neg (by omega)]
          rfl
        rw [e1, e2, hfields.1, hfields.2.1]
        have e3 : (c :: rest).getD (0 + 1) defaultWEntry = rest.getD 0 defaultWEntry := rfl
        rw [e3]
        split_ifs with hgate
        · exact weeklyApply_prev_congr c2 c _ hfields.2.2.1 hfields.2.2.2.1
            hfields.2.2.2.2.1 hfields.2.2.2.2.2
        · rfl
      | succ k =>
        have e1 : (if k + 1 = 0 then c2 else rest.getD (k + 1 - 1) defaultWEntry) =
            rest.getD k defaultWEntry := by
          rw [if_neg (by omega), Nat.add_sub_cancel]
        have e2 : (if k + 1 + 1 = 0 then prev else
            (c :: rest).getD (k + 1 + 1 - 1) defaultWEntry) = rest.getD k defaultWEntry := by
          rw [if_neg (by omega), Nat.add_sub_cancel, List.getD_cons_succ]
        have e3 : (c :: rest).getD (k + 1 + 1) defaultWEntry =
            rest.getD (k + 1) defaultWEntry := by
          rw [List.getD_cons_succ]
        rw [e1, e2, e3]

theorem weeklyContinuityPass_getD (entries : List WEntry) (i : ℕ)
    (hi : i + 1 < entries.length) :
    (weeklyContinuityPass entries).getD (i + 1) defaultWEntry =
      (if (entries.getD i defaultWEntry).version ≠ none ∧
          (entries.getD i defaultWEntry).ts ≠ JsTime.null then
        weeklyApply (entries.getD i defaultWEntry) (entries.getD (i + 1) defaultWEntry)
      else entries.getD (i + 1) defaultWEntry) := by
  cases entries with
  | nil => simp at hi
  | cons r rs =>
    have h : i < rs.length := by
      simp only [List.length_cons] at hi
      omega
    have hrec := weeklyContinuityAux_getD rs r i h
    simp only [weeklyContinuityPass, List.getD_cons_succ]
    rw [hrec]
    cases i with
    | zero =>
      have e1 : (if (0 : ℕ) = 0 then r else rs.getD (0 - 1) defaultWEntry) = r := if_pos rfl
      have e2 : (r :: rs).getD 0 defaultWEntry = r := rfl
      rw [e1, e2]
    | succ k =>
      have e1 : (if k + 1 = 0 then r else rs.getD (k + 1 - 1) defaultWEntry) =
          rs.getD k defaultWEntry := by
        rw [if_neg (by omega), Nat.add_sub_cancel]
      have e2 : (r :: rs).getD (k + 1) defaultWEntry = rs.getD k defaultWEntry := by
        rw [List.getD_cons_succ]
      rw [e1, e2]

theorem collectChanges_eq (l : List MixAgg) :
    collectChanges l =
      ((l.zip l.tail).filterMap (fun pc => pairBale pc.1 pc.2),
       (l.zip l.tail).filterMap (fun pc => pairLot pc.1 pc.2)) := by
  induction l with
  | nil => rfl
  | cons p rest ih =>
    cases rest with
    | nil => rfl
    | cons c rest2 =>
      simp only [collectChanges, ih, List.tail_cons, List.zip_cons_cons, List.filterMap_cons]
      cases pairBale p c <;> cases pairLot p c <;> simp

/-- Counterexample to claim C3, in two parts.  First, two sub-entries where
the predecessor mixing has a recorded lot but zero total bales: the claimed
"same formulas as the daily loop" yield no pairwise value (`null`
denominator), yet the source pushes `100` and reports period-local changes of
`100`.  Second, a predecessor whose lot carries a negative stored quantity:
the daily exact-zero lot test the claim asserts counts no new/removed lots
(`0`), while the weekly loop's presence-with-positive-value test counts the
lot as new and pushes `100`. -/
theorem claim_c3_cex :
    sortedMixList c3CexRows = [c3Agg1, c3Agg2] ∧
    c3Agg1.totalBales = 0 ∧
    c3SpecPairBale c3Agg1 c3Agg2 = none ∧
    weeklyPeriodChanges c3CexRows = (some 100, some 100) ∧
    c3SpecPairLot c3NegP c3NegC = some 0 ∧
    pairLot c3NegP c3NegC = some 100 := by
  have hs : sortedMixList c3CexRows = [c3Agg1, c3Agg2] := by
    simp [sortedMixList, c3CexRows, c3R1, c3R2, addWRow, aupdate, List.mergeSort,
      mixCmp, JsTime.neq, timeSub, c3Agg1, c3Agg2]
  refine ⟨hs, by norm_num [c3Agg1], ?_, ?_, ?_, ?_⟩
  · simp [c3SpecPairBale, c3Agg1]
  · unfold weeklyPeriodChanges
    rw [hs]
    simp [collectChanges, pairBale, pairLot, c3Agg1, c3Agg2, absDiffSum, lotUnion,
      alookup, wkNewLotCount, wkRemLotCount, avgChange, toFixed2, jround]
    norm_num
  · simp [c3SpecPairLot, c3NegP, c3NegC, newLotCount, remLotCount, lotUnion, alookup,
      toFixed2, jround]
    norm_num
  · simp [pairLot, c3NegP, c3NegC, wkNewLotCount, wkRemLotCount, lotUnion, alookup]

/-- Claim C3 amended: the weekly/monthly period-local change percentages are
the 2-decimal-rounded simple means of the pairwise values over consecutive
sub-entries of the sorted per-mixing list, where the pairwise bale value
follows the daily formula except that a predecessor with recorded lots and
zero total bales contributes `0` (no difference) or `100` (any difference) to
the bale average; the pairwise lot value divides the new-plus-removed count
by the predecessor's lot count, counting a lot as new (resp. removed) when
its previous (resp. current) recorded quantity is not positive while the
other side's is positive — not by the daily exact-zero test — and the lot
pair is skipped when the predecessor records no lots.
The period-local values take precedence over the cross-period continuity
computation whenever either of them was computed (the overwrite runs only
when both are null), and the cross-period pass fills `previous_mixing_ref`
from the immediate predecessor when it was not otherwise set and the
predecessor has a non-null version and timestamp. -/
theorem claim_c3 :
    (∀ rows : List WRow,
      weeklyPeriodChanges rows =
        (avgChange (((sortedMixList rows).zip (sortedMixList rows).tail).filterMap
            (fun pc => pairBale pc.1 pc.2)),
         avgChange (((sortedMixList rows).zip (sortedMixList rows).tail).filterMap
            (fun pc => pairLot pc.1 pc.2)))) ∧
    (∀ (entries : List WEntry) (i : ℕ), i + 1 < entries.length →
      (entries.getD i defaultWEntry).version ≠ none →
      (entries.getD i defaultWEntry).ts ≠ JsTime.null →
      ((entries.getD (i + 1) defaultWEntry).bale ≠ none ∨
        (entries.getD (i + 1) defaultWEntry).lot ≠ none) →
      ((weeklyContinuityPass entries).getD (i + 1) defaultWEntry).bale =
          (entries.getD (i + 1) defaultWEntry).bale ∧
        ((weeklyContinuityPass entries).getD (i + 1) defaultWEntry).lot =
          (entries.getD (i + 1) defaultWEntry).lot ∧
        ((weeklyContinuityPass entries).getD (i + 1) defaultWEntry).ref =
          (match (entries.getD (i + 1) defaultWEntry).ref with
            | some r0 => some r0
            | none => some (entries.getD i defaultWEntry).mixing_no)) := by
  constructor
  · intro rows
    unfold weeklyPeriodChanges
    rw [collectChanges_eq]
  · intro entries i hi hv ht hc
    rw [weeklyContinuityPass_getD entries i hi, if_pos ⟨hv, ht⟩]
    unfold weeklyApply
    rw [if_neg (by
      intro hcon
      rcases hc with hc | hc
      · exact hc hcon.1
      · exact hc hcon.2)]
    exact ⟨rfl, rfl, rfl⟩

/-- Witness for the amended C3: a concrete two-row period whose per-mixing
averages come out through the pairwise/mean pipeline, and a concrete
two-entry continuity group whose second entry keeps its period-local values
while `previous_mixing_ref` is filled from the predecessor. -/
theorem claim_c3_witness :
    weeklyPeriodChanges c3WRows =
      (avgChange (((sortedMixList c3WRows).zip (sortedMixList c3WRows).tail).filterMap
          (fun pc => pairBale pc.1 pc.2)),
       avgChange (((sortedMixList c3WRows).zip (sortedMixList c3WRows).tail).filterMap
          (fun pc => pairLot pc.1 pc.2))) ∧
    ((weeklyContinuityPass [c3W1, c3W2]).getD 1 defaultWEntry).bale = some 7 ∧
    ((weeklyContinuityPass [c3W1, c3W2]).getD 1 defaultWEntry).lot = none ∧
    ((weeklyContinuityPass [c3W1, c3W2]).getD 1 defaultWEntry).ref = some "1-3" := by
  have h1 := claim_c3.1 c3WRows
  have h2 := claim_c3.2 [c3W1, c3W2] 0 (by simp) (by simp [c3W1]) (by simp [c3W1])
    (by simp [c3W2])
  refine ⟨h1, ?_, ?_, ?_⟩
  · rw [h2.1]; simp [c3W2]
  · rw [h2.2.1]; simp [c3W2]
  · rw [h2.2.2]; simp [c3W2, c3W1]

/-! ## List scanning helpers for the version-parser proofs (claim C4) -/

theorem dropWhile_append_of_all {α : Type} (p : α → Bool) (l1 l2 : List α)
    (h : l1.all p = true) : (l1 ++ l2).dropWhile p = l2.dropWhile p := by
  induction l1 with
  | nil => rfl
  | cons x t ih =>
    rw [List.all_cons, Bool.and_eq_true] at h
    simp only [List.cons_append, List.dropWhile_cons, h.1, if_true]
    exact ih h.2

theorem dropWhile_append_cons_false {α : Type} (p : α → Bool) (l1 l2 : List α) (x : α)
    (h : l1.all p = true) (hx : p x = false) :
    (l1 ++ x :: l2).dropWhile p = x :: l2 := by
  rw [dropWhile_append_of_all p l1 (x :: l2) h, List.dropWhile_cons, hx]
  simp

theorem takeWhile_append_cons_false {α : Type} (p : α → Bool) (l1 l2 : List α) (x : α)
    (h : l1.all p = true) (hx : p x = false) :
    (l1 ++ x :: l2).takeWhile p = l1 := by
  induction l1 with
  | nil => simp [List.takeWhile_cons, hx]
  | cons y t ih =>
    rw [List.all_cons, Bool.and_eq_true] at h
    simp only [List.cons_append, List.takeWhile_cons, h.1, if_true]
    rw [ih h.2]

theorem dropWhile_head_false {α : Type} (p : α → Bool) (l : List α) (x : α) (t : List α)
    (h : l.dropWhile p = x :: t) : p x = false := by
  induction l with
  | nil => simp at h
  | cons a l2 ih =>
    rw [List.dropWhile_cons] at h
    by_cases ha : p a
    · rw [if_pos ha] at h
      exact ih h
    · rw [if_neg ha] at h
      rcases h with ⟨rfl, rfl⟩
      exact Bool.eq_false_iff.mpr ha

theorem dropWhile_eq_nil_iff_all {α : Type} (p : α → Bool) (l : List α) :
    l.dropWhile p = [] ↔ l.all p = true := by
  induction l with
  | nil => simp
  | cons a l2 ih =>
    rw [List.dropWhile_cons, List.all_cons]
    by_cases ha : p a
    · rw [if_pos ha]
      simp [ha, ih]
    · rw [if_neg ha]
      simp [ha]

theorem dropWhile_dropWhile {α : Type} (p : α → Bool) (l : List α) :
    (l.dropWhile p).dropWhile p = l.dropWhile p := by
  cases h : l.dropWhile p with
  | nil => rfl
  | cons x t =>
    rw [List.dropWhile_cons, dropWhile_head_false p l x t h]
    simp

theorem strip_decomp (l : List Char) :
    l = stripTrailingSeps l ++ (l.reverse.takeWhile sepChar).reverse := by
  unfold stripTrailingSeps
  rw [← List.reverse_append, List.takeWhile_append_dropWhile, List.reverse_reverse]

theorem strip_eq_nil_iff (l : List Char) :
    stripTrailingSeps l = [] ↔ l.all sepChar = true := by
  unfold stripTrailingSeps
  rw [List.reverse_eq_nil_iff, dropWhile_eq_nil_iff_all]
  constructor
  · intro h
    rw [List.all_eq_true] at h ⊢
    intro x hx
    exact h x (List.mem_reverse.mpr hx)
  · intro h
    rw [List.all_eq_true] at h ⊢
    intro x hx
    exact h x (List.mem_reverse.mp hx)

theorem strip_idem (l : List Char) :
    stripTrailingSeps (stripTrailingSeps l) = stripTrailingSeps l := by
  unfold stripTrailingSeps
  rw [List.reverse_reverse, dropWhile_dropWhile]

theorem strip_all_sep (l : List Char) (h : l.all sepChar = true) :
    stripTrailingSeps l = [] := (strip_eq_nil_iff l).mpr h

theorem isSpace_upChar (c : Char) (h2 : isSpaceChar c = false) :
    isSpaceChar (upChar c) = false := by
  unfold upChar
  cases hf : upPairs.find? (fun p => p.1 == c) with
  | none => exact h2
  | some p =>
    have hmem := List.mem_of_find?_eq_some hf
    fin_cases hmem <;> rfl

theorem sep_false_space_false (c : Char) (h : sepChar c = false) :
    isSpaceChar c = false := by
  unfold sepChar at h
  rcases Bool.or_eq_false_iff.mp h with ⟨h1, _⟩
  rcases Bool.or_eq_false_iff.mp h1 with ⟨h2, _⟩
  rcases Bool.or_eq_false_iff.mp h2 with ⟨h3, _⟩
  exact h3

theorem takeWhile_all_self {α : Type} (p : α → Bool) (l : List α) :
    (l.takeWhile p).all p = true := by
  induction l with
  | nil => rfl
  | cons a t ih =>
    rw [List.takeWhile_cons]
    by_cases ha : p a = true
    · rw [if_pos ha, List.all_cons, ha, ih]
      rfl
    · rw [if_neg ha]
      rfl

theorem all_reverse_iff {α : Type} (p : α → Bool) (l : List α) :
    l.reverse.all p = true ↔ l.all p = true := by
  rw [List.all_eq_true, List.all_eq_true]
  constructor <;> intro h x hx
  · exact h x (List.mem_reverse.mpr hx)
  · exact h x (List.mem_reverse.mp hx)

theorem dropWhile_append_left {α : Type} (p : α → Bool) (l1 l2 : List α) (x : α)
    (t : List α) (h : l1.dropWhile p = x :: t) :
    (l1 ++ l2).dropWhile p = x :: (t ++ l2) := by
  induction l1 with
  | nil => simp at h
  | cons a l1x ih =>
    rw [List.dropWhile_cons] at h
    by_cases ha : p a = true
    · rw [if_pos ha] at h
      rw [List.cons_append, List.dropWhile_cons, if_pos ha]
      exact ih h
    · rw [if_neg ha] at h
      injection h with h1 h2
      subst h1
      subst h2
      rw [List.cons_append, List.dropWhile_cons, if_neg ha]

theorem strip_cons_of (c : Char) (l : List Char)
    (h : sepChar c = false ∨ stripTrailingSeps l ≠ []) :
    stripTrailingSeps (c :: l) = c :: stripTrailingSeps l := by
  unfold stripTrailingSeps
  rw [List.reverse_cons]
  cases hd : l.reverse.dropWhile sepChar with
  | cons x t =>
    rw [dropWhile_append_left sepChar l.reverse [c] x t hd]
    simp
  | nil =>
    have hc : sepChar c = false := by
      rcases h with h | h
      · exact h
      · exact absurd (by unfold stripTrailingSeps; rw [hd]; rfl) h
    have hall : l.reverse.all sepChar = true :=
      (dropWhile_eq_nil_iff_all sepChar l.reverse).mp hd
    rw [dropWhile_append_of_all sepChar l.reverse [c] hall,
      List.dropWhile_cons, hc]
    simp

theorem tailMarker_eq_some (rest ds : List Char) (h : tailMarker rest = some ds) :
    rest = rest.takeWhile sepChar ++ 'V' :: ds ∧ ds ≠ [] ∧
      ds.all isDigitChar = true := by
  unfold tailMarker at h
  split at h
  · rename_i ds0 heq
    split at h
    · rename_i hc
      injection h with h2
      subst h2
      refine ⟨?_, hc.1, hc.2⟩
      conv_lhs => rw [← List.takeWhile_append_dropWhile (p := sepChar) (l := rest)]
      rw [heq]
    · simp at h
  · simp at h

theorem tailMarker_decomp (seps ds : List Char) (hs : seps.all sepChar = true)
    (hds : ds ≠ []) (hall : ds.all isDigitChar = true) :
    tailMarker (seps ++ 'V' :: ds) = some ds := by
  unfold tailMarker
  rw [dropWhile_append_cons_false sepChar seps ds 'V' hs (by decide)]
  split
  · rename_i ds0 heq
    injection heq with h1 h2
    subst h2
    exact if_pos ⟨hds, hall⟩
  · rename_i hne
    exact absurd rfl (hne ds)

theorem claimSplit_decomp (p ds : List Char) (hds : ds ≠ [])
    (hall : ds.all isDigitChar = true) :
    claimSplit (p ++ 'V' :: ds) = some (p, ds) := by
  have hallr : ds.reverse.all isDigitChar = true :=
    (all_reverse_iff isDigitChar ds).mpr hall
  have hrev : (p ++ 'V' :: ds).reverse = ds.reverse ++ 'V' :: p.reverse := by
    simp
  simp only [claimSplit]
  rw [hrev,
    takeWhile_append_cons_false isDigitChar ds.reverse p.reverse 'V' hallr (by decide),
    dropWhile_append_cons_false isDigitChar ds.reverse p.reverse 'V' hallr (by decide)]
  split
  · rename_i rp heq
    injection heq with h1 h2
    subst h2
    rw [if_pos (show ds.reverse ≠ [] by simpa using hds)]
    simp
  · rename_i hne
    exact absurd rfl (hne p.reverse)

theorem claimSplit_eq_some (cs p ds : List Char)
    (h : claimSplit cs = some (p, ds)) :
    cs = p ++ 'V' :: ds ∧ ds ≠ [] ∧ ds.all isDigitChar = true := by
  simp only [claimSplit] at h
  split at h
  · rename_i rp heq
    split at h
    · rename_i hne
      injection h with h2
      rw [Prod.mk.injEq] at h2
      obtain ⟨hp, hd⟩ := h2
      have hsplit : cs.reverse.takeWhile isDigitChar ++ 'V' :: rp = cs.reverse := by
        conv_rhs => rw [← List.takeWhile_append_dropWhile (p := isDigitChar) (l := cs.reverse)]
        rw [heq]
      have h4 := congrArg List.reverse hsplit
      rw [List.reverse_reverse] at h4
      have hcs : cs = rp.reverse ++ 'V' :: (cs.reverse.takeWhile isDigitChar).reverse := by
        conv_lhs => rw [← h4]
        simp
      refine ⟨?_, ?_, ?_⟩
      · rw [hcs, hp, hd]
      · rw [← hd]
        simp only [ne_eq, List.reverse_eq_nil_iff]
        exact hne
      · rw [← hd]
        exact (all_reverse_iff isDigitChar _).mpr (takeWhile_all_self isDigitChar cs.reverse)
    · simp at h
  · simp at h

theorem lazySplitGo_cons (acc : List Char) (c : Char) (rest2 : List Char) :
    lazySplitGo acc (c :: rest2) =
      match tailMarker (c :: rest2) with
      | some ds => some (acc.reverse, ds)
      | none => lazySplitGo (c :: acc) rest2 := by
  conv_lhs => rw [lazySplitGo]

theorem lazySplitGo_acc (acc rest : List Char) :
    lazySplitGo acc rest =
      (lazySplitGo [] rest).map (fun pd => (acc.reverse ++ pd.1, pd.2)) := by
  induction rest generalizing acc with
  | nil => rfl
  | cons c rest2 ih =>
    cases hm : tailMarker (c :: rest2) with
    | some ds =>
      rw [lazySplitGo_cons, lazySplitGo_cons, hm]
      simp
    | none =>
      rw [lazySplitGo_cons, lazySplitGo_cons, hm]
      simp only [ih (c :: acc), ih [c]]
      cases lazySplitGo [] rest2 with
      | none => rfl
      | some pd => simp

theorem lazySplit_tailMarker (c : Char) (cs2 ds : List Char)
    (hm : tailMarker (c :: cs2) = some ds) :
    lazySplit (c :: cs2) = some ([], ds) := by
  unfold lazySplit
  rw [lazySplitGo_cons, hm]
  rfl

theorem lazySplit_step (c : Char) (cs2 : List Char)
    (hm : tailMarker (c :: cs2) = none) :
    lazySplit (c :: cs2) = (lazySplit cs2).map (fun pd => (c :: pd.1, pd.2)) := by
  unfold lazySplit
  rw [lazySplitGo_cons, hm]
  simp only [lazySplitGo_acc [c] cs2]
  cases lazySplitGo [] cs2 with
  | none => rfl
  | some pd => simp

theorem lazySplit_eq_claimSplit (cs : List Char) :
    lazySplit cs =
      (claimSplit cs).map (fun pd => (stripTrailingSeps pd.1, pd.2)) := by
  induction cs with
  | nil => rfl
  | cons c cs2 ih =>
    cases hm : tailMarker (c :: cs2) with
    | some ds =>
      obtain ⟨hdec, hne, hall⟩ := tailMarker_eq_some (c :: cs2) ds hm
      have hsep : ((c :: cs2).takeWhile sepChar).all sepChar = true :=
        takeWhile_all_self sepChar (c :: cs2)
      rw [lazySplit_tailMarker c cs2 ds hm, hdec,
        claimSplit_decomp ((c :: cs2).takeWhile sepChar) ds hne hall]
      simp [strip_all_sep ((c :: cs2).takeWhile sepChar) hsep]
    | none =>
      rw [lazySplit_step c cs2 hm, ih]
      cases hcl : claimSplit cs2 with
      | some pd =>
        obtain ⟨p, ds⟩ := pd
        obtain ⟨hdec, hne, hall⟩ := claimSplit_eq_some cs2 p ds hcl
        have h2 : claimSplit (c :: cs2) = some (c :: p, ds) := by
          rw [hdec, ← List.cons_append]
          exact claimSplit_decomp (c :: p) ds hne hall
        have h3 : stripTrailingSeps (c :: p) = c :: stripTrailingSeps p := by
          apply strip_cons_of
          by_cases hcsep : sepChar c = true
          · right
            intro hnil
            have hallp : (c :: p).all sepChar = true := by
              rw [List.all_cons, Bool.and_eq_true]
              exact ⟨hcsep, (strip_eq_nil_iff p).mp hnil⟩
            have h5 := tailMarker_decomp (c :: p) ds hallp hne hall
            rw [List.cons_append, ← hdec] at h5
            rw [hm] at h5
            exact Option.noConfusion h5
          · exact Or.inl (Bool.eq_false_iff.mpr hcsep)
        rw [h2]
        simp [h3]
      | none =>
        have h2 : claimSplit (c :: cs2) = none := by
          cases h3 : claimSplit (c :: cs2) with
          | none => rfl
          | some pd =>
            obtain ⟨p, ds⟩ := pd
            obtain ⟨hdec, hne, hall⟩ := claimSplit_eq_some (c :: cs2) p ds h3
            cases p with
            | nil =>
              rw [List.nil_append] at hdec
              injection hdec with hc1 hc2
              have h4 := tailMarker_decomp [] ds rfl hne hall
              rw [List.nil_append] at h4
              rw [← hc1, ← hc2] at h4
              rw [hm] at h4
              exact Option.noConfusion h4
            | cons q p2 =>
              rw [List.cons_append] at hdec
              injection hdec with hc1 hc2
              have h5 : claimSplit cs2 = some (p2, ds) := by
                rw [hc2]
                exact claimSplit_decomp p2 ds hne hall
              rw [hcl] at h5
              exact Option.noConfusion h5
        rw [h2]
        rfl

theorem jsTrimL_leads (l : List Char) :
    ∃ u, l.dropWhile isSpaceChar = jsTrimL l ++ u := by
  refine ⟨((l.dropWhile isSpaceChar).reverse.takeWhile isSpaceChar).reverse, ?_⟩
  unfold jsTrimL
  rw [← List.reverse_append, List.takeWhile_append_dropWhile, List.reverse_reverse]

theorem jsTrimL_head_not_space (l : List Char) (x : Char) (t : List Char)
    (h : jsTrimL l = x :: t) : isSpaceChar x = false := by
  obtain ⟨u, hu⟩ := jsTrimL_leads l
  rw [h] at hu
  exact dropWhile_head_false isSpaceChar l x (t ++ u) (by simpa using hu)

theorem normChars_head_not_space (s : String) (x : Char) (t : List Char)
    (h : normChars s = x :: t) : isSpaceChar x = false := by
  unfold normChars at h
  cases hj : jsTrimL s.data with
  | nil => rw [hj] at h; exact absurd h (by simp)
  | cons y t0 =>
    rw [hj, List.map_cons] at h
    injection h with h1 h2
    rw [← h1]
    exact isSpace_upChar y (jsTrimL_head_not_space s.data y t0 hj)

theorem jsTrimL_eq_self (l : List Char)
    (hh : ∀ x t, l = x :: t → isSpaceChar x = false)
    (hz : ∀ x t, l.reverse = x :: t → isSpaceChar x = false) :
    jsTrimL l = l := by
  unfold jsTrimL
  have h1 : l.dropWhile isSpaceChar = l := by
    cases he : l with
    | nil => rfl
    | cons x t =>
      rw [List.dropWhile_cons, hh x t he]
      simp
  rw [h1]
  have h2 : l.reverse.dropWhile isSpaceChar = l.reverse := by
    cases he : l.reverse with
    | nil => rfl
    | cons x t =>
      rw [List.dropWhile_cons, hz x t he]
      simp
  rw [h2, List.reverse_reverse]

theorem strip_base_trim (s : String) (p ds : List Char)
    (hdec : normChars s = p ++ 'V' :: ds) :
    jsTrimL (stripTrailingSeps p) = stripTrailingSeps p := by
  apply jsTrimL_eq_self
  · intro x t hxt
    obtain ⟨w, hp⟩ : ∃ w, p = x :: (t ++ w) := by
      refine ⟨(p.reverse.takeWhile sepChar).reverse, ?_⟩
      conv_lhs => rw [strip_decomp p]
      rw [hxt, List.cons_append]
    apply normChars_head_not_space s x ((t ++ w) ++ 'V' :: ds)
    rw [hdec, hp, List.cons_append]
  · intro x t hxt
    have h2 : p.reverse.dropWhile sepChar = x :: t := by
      rw [← hxt]
      unfold stripTrailingSeps
      rw [List.reverse_reverse]
    exact sep_false_space_false x (dropWhile_head_false sepChar p.reverse x t h2)

theorem sep_false_term_false (c : Char) (h : sepChar c = false) :
    termChar c = false := by
  by_cases ht : termChar c = true
  · unfold termChar at ht
    rcases Bool.or_eq_true_iff.mp ht with h1 | h1
    · rw [eq_of_beq h1] at h
      exact absurd h (by decide)
    · rw [eq_of_beq h1] at h
      exact absurd h (by decide)
  · exact Bool.eq_false_iff.mpr ht

theorem jsTrimL_eq_nil_iff (l : List Char) :
    jsTrimL l = [] ↔ l.all isSpaceChar = true := by
  unfold jsTrimL
  rw [List.reverse_eq_nil_iff, dropWhile_eq_nil_iff_all, all_reverse_iff]
  constructor
  · intro h
    have h2 := List.takeWhile_append_dropWhile (p := isSpaceChar) (l := l)
    rw [← h2, List.all_append, Bool.and_eq_true]
    exact ⟨takeWhile_all_self isSpaceChar l, h⟩
  · intro h
    rw [List.all_eq_true] at h ⊢
    intro x hx
    apply h
    rw [← List.takeWhile_append_dropWhile (p := isSpaceChar) (l := l)]
    exact List.mem_append_right _ hx

theorem strip_lastSegment (l : List Char) :
    stripTrailingSeps (lastSegment (stripTrailingSeps l)) =
      lastSegment (stripTrailingSeps l) := by
  set a := stripTrailingSeps l with hset
  cases hd : l.reverse.dropWhile sepChar with
  | nil =>
    have h0 : a = [] := by
      rw [hset]
      unfold stripTrailingSeps
      rw [hd]
      rfl
    rw [h0]
    rfl
  | cons x t2 =>
    have hsx : sepChar x = false := dropWhile_head_false sepChar l.reverse x t2 hd
    have htx : termChar x = false := sep_false_term_false x hsx
    have ha2 : a.reverse = x :: t2 := by
      rw [hset]
      unfold stripTrailingSeps
      rw [List.reverse_reverse, hd]
    have hseg : (lastSegment a).reverse =
        x :: (t2.takeWhile (fun c => !termChar c)) := by
      unfold lastSegment
      rw [List.reverse_reverse, ha2, List.takeWhile_cons]
      simp [htx]
    unfold stripTrailingSeps
    rw [hseg, List.dropWhile_cons, hsx]
    simp [← hseg]

theorem parse_amended_eq (s : String) :
    parseCottonVersion (some s) = claimParseAmended (some s) := by
  by_cases hs : s = ""
  · subst hs
    rfl
  · simp only [parseCottonVersion, claimParseAmended]
    rw [if_neg hs, if_neg hs]
    by_cases hcs : normChars s = []
    · rw [if_pos hcs, if_pos hcs]
    · rw [if_neg hcs, if_neg hcs]
      simp only [parseCottonVersionCore]
      cases hm : match22V (normChars s) with
      | some gv => simp [hm]
      | none =>
        simp only [hm]
        cases hcl : claimSplit (normChars s) with
        | none =>
          have hl : lazySplit (normChars s) = none := by
            rw [lazySplit_eq_claimSplit, hcl]
            rfl
          simp [hl, hcl]
        | some pd =>
          obtain ⟨p, ds⟩ := pd
          have hl : lazySplit (normChars s) = some (stripTrailingSeps p, ds) := by
            rw [lazySplit_eq_claimSplit, hcl]
            rfl
          simp only [hl, hcl]
          rw [strip_lastSegment p]
          by_cases hp : stripTrailingSeps p = []
          · have hsm : stripMarker (normChars s) = [] := by
              unfold stripMarker
              rw [hl]
              exact hp
            have hseg0 : lastSegment ([] : List Char) = [] := rfl
            have hj0 : jsTrimL ([] : List Char) = [] := rfl
            simp [hp, hsm, hseg0, hj0]
          · cases hd : p.reverse.dropWhile sepChar with
            | nil =>
              exact absurd (by unfold stripTrailingSeps; rw [hd]; rfl) hp
            | cons x t2 =>
              have hsx : sepChar x = false := dropWhile_head_false sepChar p.reverse x t2 hd
              have htx : termChar x = false := sep_false_term_false x hsx
              have hseg : (lastSegment (stripTrailingSeps p)).reverse =
                  x :: (t2.takeWhile (fun c => !termChar c)) := by
                unfold lastSegment stripTrailingSeps
                rw [List.reverse_reverse, List.reverse_reverse, hd, List.takeWhile_cons]
                simp [htx]
              have htne : jsTrimL (lastSegment (stripTrailingSeps p)) ≠ [] := by
                intro h0
                have hall2 := (jsTrimL_eq_nil_iff _).mp h0
                have hx : x ∈ lastSegment (stripTrailingSeps p) := by
                  rw [← List.mem_reverse, hseg]
                  exact List.mem_cons_self _ _
                have h1 := List.all_eq_true.mp hall2 x hx
                rw [sep_false_space_false x hsx] at h1
                exact Bool.false_ne_true h1
              simp [htne]

/-- Counterexample to claim C4 as stated: on the blend code "V2" the whole
normalized code is a bare trailing version marker, so the prefix with trailing
separators trimmed is empty.  The claim's general rule then makes the group
key the empty string, but the source falls back to the whole normalized code
and returns group key "V2". -/
theorem claim_c4_cex :
    (parseCottonVersion (some "V2")).groupKey = "V2" ∧
    (claimParseStated (some "V2")).groupKey = "" ∧
    (claimParseStated (some "V2")).versionNumber = some 2 := by
  refine ⟨?_, ?_, ?_⟩ <;> decide

/-- Claim C4, amended: blend-version parsing behaves exactly as claimed
(YY_UL_VN pattern first, then a trailing V-digits marker with separator
trimming, else the whole normalized code) EXCEPT that (a) the prefix kept as
group key is only its part after the last line terminator — the regex dot
does not match a line terminator and matching restarts past it, so
"A\nB-V2" yields group key "B" — and (b) when that trimmed part is empty
the group key falls back to the whole normalized code rather than the empty
string; the claim's concrete examples "25_31_V2", "ABC-V10", null and ""
all hold. -/
theorem claim_c4 :
    (∀ v, parseCottonVersion v = claimParseAmended v) ∧
    parseCottonVersion (some "25_31_V2") =
      ⟨"25_31", some 2, some "25_31_V2"⟩ ∧
    parseCottonVersion (some "ABC-V10") =
      ⟨"ABC", some 10, some "ABC-V10"⟩ ∧
    parseCottonVersion (some "A\nB-V2") = ⟨"B", some 2, some "A\nB-V2"⟩ ∧
    parseCottonVersion none = ⟨"__NO_VERSION__", none, none⟩ ∧
    parseCottonVersion (some "") = ⟨"__NO_VERSION__", none, none⟩ := by
  refine ⟨?_, by decide, by decide, by decide, rfl, by decide⟩
  intro v
  cases v with
  | none => rfl
  | some s => exact parse_amended_eq s
